import Mathlib

/-!
Verification of the maze-generation and input-normalization core of the
Exit Vector game (src/js/maze.js and src/js/controls.js), as a shallow
embedding in Lean 4.  Machine numbers are modelled exactly: integers as
Nat/Int with explicit `% 2^31` where the source masks with `& 0x7fffffff`,
and real-valued arithmetic as exact rationals.  Fallible code paths (the
out-of-range array access that Fisher-Yates shuffle can perform when
`next()` returns exactly 1, which makes the JS generation throw) are
modelled with `Except`; the `outOfFuel` error is an artifact of the fuel
used to express the recursion of `_carve` and is proved unreachable.
-/

namespace ExitVector

/-! ## Cell types (maze.js, CELL_TYPES) -/

def WALL : ℕ := 0
def PATH : ℕ := 1
def ENTRY : ℕ := 2
def EXIT : ℕ := 3

/-- Direction vectors for maze generation (maze.js, DIRECTIONS).
The `name` field of the source objects is never read and is omitted. -/
structure Dir where
  dx : ℤ
  dy : ℤ
deriving DecidableEq, Repr

def DIRECTIONS : List Dir := [⟨0, -1⟩, ⟨1, 0⟩, ⟨0, 1⟩, ⟨-1, 0⟩]

/-! ## SeededRandom (maze.js) -/

/-- Seeded linear congruential generator state (maze.js, class SeededRandom). -/
structure SeededRandom where
  seed : ℕ
deriving DecidableEq, Repr

/-- How many bits the number `n` overflows the 53-bit binary64 significand
by (0 when it fits).  The first argument is a structural fuel; the scan
stops as soon as the shifted value fits, so any fuel of at least the bit
length of `n` gives the exact answer. -/
def excessBits : ℕ → ℕ → ℕ
  | 0, _ => 0
  | k + 1, n => if 2 ^ 53 ≤ n then excessBits k (n / 2) + 1 else 0

/-- Round a natural number to the nearest binary64-representable value:
53-bit significand, ties to even.  Integers below `2 ^ 53` are exact; above,
the representable neighbours are the multiples of `2 ^ s` in the binade,
where `s` is the significand overflow.  This is the rounding JS performs on
each arithmetic step of `next()`, whose intermediate values are integral. -/
def fl (n : ℕ) : ℕ :=
  let s := excessBits n n
  if s = 0 then n
  else
    let q := n / 2 ^ s
    let r := n % 2 ^ s
    let h := 2 ^ (s - 1)
    if h < r ∨ (r = h ∧ q % 2 = 1) then (q + 1) * 2 ^ s else q * 2 ^ s

/-- The `next()` method: `seed = (seed * 1103515245 + 12345) & 0x7fffffff;
return seed / 0x7fffffff`.  JS evaluates `seed * 1103515245 + 12345` in
binary64: the product rounds to 53 significant bits, then the sum rounds
again, so each step goes through `fl`.  The `&` truncates the integral
double and keeps its low 31 bits, which is `% 2^31`.  The final division by
the constant `0x7fffffff = 2147483647` is kept as exact rational division:
for numerators up to `2^31 - 2` the binary64 quotient also lies strictly
below 1 (the exact quotient is at least `2^-31` away from 1, far beyond the
rounding step at 1), and it equals 1 exactly for numerator `2^31 - 1`, so
the boundary behaviour of the quotient is the same in both arithmetics. -/
def SeededRandom.next (r : SeededRandom) : ℚ × SeededRandom :=
  let s := fl (fl (r.seed * 1103515245) + 12345) % 2147483648
  ((s : ℚ) / 2147483647, ⟨s⟩)

/-- The `nextInt(min, max)` method: `Math.floor(next() * (max - min)) + min`. -/
def SeededRandom.nextInt (r : SeededRandom) (lo hi : ℤ) : ℤ × SeededRandom :=
  let p := r.next
  (⌊p.1 * ((hi : ℚ) - (lo : ℚ))⌋ + lo, p.2)

/-- Failure modes of the generation: `badIndex` models the exception the JS
code would throw if the Fisher-Yates index computed from `next()` fell
outside the array (which would require `next()` to return exactly 1);
`outOfFuel` is an artifact of the fuel-indexed recursion and is proved
unreachable. -/
inductive GenError where
  | badIndex
  | outOfFuel
deriving DecidableEq, Repr

/-- One Fisher-Yates swap `[arr[i], arr[j]] = [arr[j], arr[i]]`; reading an
index outside the array is the JS `undefined` that later makes iteration
throw, modelled as failure. -/
def swapIdx (l : List α) (i : ℕ) (j : ℤ) : Option (List α) :=
  match j with
  | .negSucc _ => none
  | .ofNat jn =>
    match l[i]?, l[jn]? with
    | some a, some b => some ((l.set i b).set jn a)
    | _, _ => none

/-- The loop of `shuffle`: `for (let i = length - 1; i > 0; i--)`, with the
current JS index being `i + 1` at each step of the recursion. -/
def shuffleFrom (r : SeededRandom) (arr : List α) : ℕ → Except GenError (List α) × SeededRandom
  | 0 => (.ok arr, r)
  | i + 1 =>
    let p := r.nextInt 0 ((i : ℤ) + 2)
    match swapIdx arr (i + 1) p.1 with
    | none => (.error .badIndex, p.2)
    | some arr2 => shuffleFrom p.2 arr2 i

/-- The `shuffle(array)` method (Fisher-Yates on a copy of the input). -/
def SeededRandom.shuffle (r : SeededRandom) (arr : List α) :
    Except GenError (List α) × SeededRandom :=
  shuffleFrom r arr (arr.length - 1)

/-! ## MazeGenerator (maze.js) -/

/-- The grid, accessed as `grid y x` mirroring the source's `grid[y][x]`. -/
abbrev Grid := ℤ → ℤ → ℕ

/-- Assignment `grid[y][x] = v`. -/
def setCell (g : Grid) (y x : ℤ) (v : ℕ) : Grid :=
  fun b a => if b = y ∧ a = x then v else g b a

/-- The `for (const dir of directions)` loop body of `_carve`, parametrized by
the recursive call `recur` (the surrounding `_carve` at the next fuel level). -/
def carveDirs (recur : Grid → SeededRandom → ℤ → ℤ → Except GenError (Grid × SeededRandom))
    (cols rows : ℕ) (g : Grid) (r : SeededRandom) (x y : ℤ) :
    List Dir → Except GenError (Grid × SeededRandom)
  | [] => .ok (g, r)
  | d :: ds =>
    let nx := x + d.dx * 2
    let ny := y + d.dy * 2
    if 0 < nx ∧ nx < (cols : ℤ) - 1 ∧ 0 < ny ∧ ny < (rows : ℤ) - 1 ∧ g ny nx = WALL then
      match recur (setCell g (y + d.dy) (x + d.dx) PATH) r nx ny with
      | .error e => .error e
      | .ok (g2, r2) => carveDirs recur cols rows g2 r2 x y ds
    else
      carveDirs recur cols rows g r x y ds

/-- The recursive backtracking `_carve(x, y)`: mark the current cell Path,
shuffle the four directions, and for each direction whose two-step target is
strictly interior and still Wall, carve the intervening cell and recurse.
The extra fuel argument makes the recursion structural; `init` supplies
enough fuel that `outOfFuel` is unreachable. -/
def carve (cols rows : ℕ) : ℕ → Grid → SeededRandom → ℤ → ℤ → Except GenError (Grid × SeededRandom)
  | 0, _, _, _, _ => .error .outOfFuel
  | fuel + 1, g, r, x, y =>
    let g1 := setCell g y x PATH
    match r.shuffle DIRECTIONS with
    | (.error e, _) => .error e
    | (.ok dirs, r1) => carveDirs (carve cols rows fuel) cols rows g1 r1 x y dirs

/-- The start column of the carve, forced to odd parity. -/
def startCol (cols : ℕ) : ℕ :=
  if (cols / 2) % 2 = 0 then cols / 2 + 1 else cols / 2

/-- The `_generateMaze` method: all-Wall grid, start column forced to odd
parity near the horizontal center, then recursive backtracking from row 1. -/
def generateMaze (cols rows : ℕ) (r : SeededRandom) : Except GenError (Grid × SeededRandom) :=
  carve cols rows (cols * rows + 1) (fun _ _ => WALL) r ((startCol cols : ℕ) : ℤ) 1

/-- The inner scan of `_createEntryAndExits` looking for the Path cell of the
second-to-last row nearest to `targetCol` (`minDist` starts at `Infinity`,
modelled by `none`). -/
def scanStep (g : Grid) (rows : ℕ) (targetCol : ℤ) (st : ℤ × Option ℤ) (x : ℤ) :
    ℤ × Option ℤ :=
  if g ((rows : ℤ) - 2) x = PATH then
    let dist := |x - targetCol|
    match st.2 with
    | none => (x, some dist)
    | some m => if dist < m then (x, some dist) else st
  else st

/-- The per-exit column search (`for (let x = 1; x < cols - 1; x++)`). -/
def findBestCol (g : Grid) (cols rows : ℕ) (targetCol : ℤ) : ℤ :=
  (((List.range (cols - 2)).map (fun n : ℕ => (n : ℤ) + 1)).foldl
    (scanStep g rows targetCol) (targetCol, none)).1

/-- The five exit target fractions `[0.1, 0.3, 0.5, 0.7, 0.9]`. -/
def exitPositions : List ℚ := [1/10, 3/10, 1/2, 7/10, 9/10]

/-- The upward carving loop closing a gap above an exit column:
`for (let y = rows - 2; y >= 0; y--) { if Path break; set Path }`. -/
def carveUp (col : ℤ) : ℕ → Grid → Grid
  | 0, g => if g 0 col = PATH then g else setCell g 0 col PATH
  | y + 1, g =>
    if g ((y : ℤ) + 1) col = PATH then g
    else carveUp col y (setCell g ((y : ℤ) + 1) col PATH)

/-- One exit placement: find the nearest Path column of the second-to-last
row and open the cell below it in the last row. -/
def exitStep (cols rows : ℕ) (acc : Grid × List ℤ) (pos : ℚ) : Grid × List ℤ :=
  let targetCol : ℤ := ⌊pos * (cols : ℚ)⌋
  let bestCol := findBestCol acc.1 cols rows targetCol
  (setCell acc.1 ((rows : ℤ) - 1) bestCol EXIT, acc.2 ++ [bestCol])

/-- One step of the gap-closing loop over the exit columns. -/
def fixStep (rows : ℕ) (gg : Grid) (c : ℤ) : Grid :=
  if gg ((rows : ℤ) - 2) c = WALL then carveUp c (rows - 2) gg else gg

/-- The `_createEntryAndExits` method: entry opening at the top center, five
exit openings in the last row at the nearest Path columns of the
second-to-last row, then the gap-closing upward carve for each exit column. -/
def createEntryAndExits (g : Grid) (cols rows : ℕ) : Grid × List ℤ :=
  let centerX : ℤ := ((cols / 2 : ℕ) : ℤ)
  let gB := setCell g 0 centerX ENTRY
  let gC := setCell gB 1 centerX PATH
  let pr := exitPositions.foldl (exitStep cols rows) (gC, [])
  let gE := pr.2.foldl (fixStep rows) pr.1
  (gE, pr.2)

/-- Score, color and label of the five exit zones, in left-to-right order
(500, 100, 1000, 0, 250 as in the source). -/
structure ScoreEntry where
  score : ℕ
  color : String
  label : String
deriving DecidableEq, Repr

def exitScores : List ScoreEntry :=
  [⟨500, "#4ade80", "500"⟩, ⟨100, "#60a5fa", "100"⟩, ⟨1000, "#facc15", "1000"⟩,
   ⟨0, "#94a3b8", "0"⟩, ⟨250, "#f472b6", "250"⟩]

/-- An exit zone record as pushed by `_buildExitZones`. -/
structure ExitZone where
  x : ℚ
  y : ℚ
  width : ℚ
  height : ℚ
  score : ℕ
  color : String
  label : String
  column : ℤ
deriving DecidableEq, Repr

/-- The `_buildExitZones` method.  `exitColumns[i] || fallback` is JS number
truthiness: the fallback applies when the entry is missing or 0. -/
def buildExitZones (width height zoneHeight : ℚ) (ecols : List ℤ) (cols : ℕ) : List ExitZone :=
  let zoneWidth := width / 5
  (List.range 5).map fun (i : ℕ) =>
    { x := (i : ℚ) * zoneWidth
      y := height
      width := zoneWidth
      height := zoneHeight
      score := (exitScores.getD i ⟨0, "", ""⟩).score
      color := (exitScores.getD i ⟨0, "", ""⟩).color
      label := (exitScores.getD i ⟨0, "", ""⟩).label
      column :=
        let c := ecols.getD i 0
        if c = 0 then ⌊((i : ℚ) + 1/2) * (cols : ℚ) / 5⌋ else c }

/-- A wall collision rectangle as pushed by `_buildWallRects`. -/
structure WallRect where
  x : ℚ
  y : ℚ
  width : ℚ
  height : ℚ
  isWall : Bool
deriving DecidableEq, Repr

/-- The `_buildWallRects` method: one rectangle per Wall cell. -/
def buildWallRects (g : Grid) (cols rows : ℕ) (cellSize : ℤ) : List WallRect :=
  ((List.range rows).flatMap fun yn =>
    (List.range cols).filterMap fun xn =>
      if g (yn : ℤ) (xn : ℤ) = WALL then
        some { x := ((xn : ℤ) * cellSize : ℤ), y := ((yn : ℤ) * cellSize : ℤ),
               width := (cellSize : ℚ), height := (cellSize : ℚ), isWall := true }
      else none)

/-- The state of a MazeGenerator after `init`. -/
structure MazeState where
  level : ℕ
  cols : ℕ
  rows : ℕ
  cellSize : ℤ
  width : ℤ
  height : ℤ
  grid : Grid
  exitColumns : List ℤ
  exitZones : List ExitZone
  wallRects : List WallRect
  entryX : ℚ
  entryY : ℚ

/-- The level-scaled column count `11 + floor(level/2) * 2`, bumped to odd
parity (`init`, maze.js lines 149-153). -/
def colsOf (level : ℕ) : ℕ :=
  let cols0 := 11 + (level / 2) * 2
  if cols0 % 2 = 0 then cols0 + 1 else cols0

/-- The level-scaled row count `13 + floor(level/3) * 2`, bumped to odd
parity. -/
def rowsOf (level : ℕ) : ℕ :=
  let rows0 := 13 + (level / 3) * 2
  if rows0 % 2 = 0 then rows0 + 1 else rows0

/-- The canvas-fitted cell size with the playability floor of 20 pixels. -/
def cellSizeOf (level : ℕ) (canvasWidth canvasHeight zoneHeight : ℚ) : ℤ :=
  let availableHeight := canvasHeight - zoneHeight - 40
  let cellSize0 : ℤ :=
    ⌊min ((canvasWidth - 40) / (colsOf level : ℚ)) (availableHeight / (rowsOf level : ℚ))⌋
  max cellSize0 20

/-- The `init(level, canvasWidth, canvasHeight)` method.  `zoneHeight` stands
for `EXIT_CONFIG.zoneHeight`, a configuration constant external to src/, and
`seed` for the wall-clock `Date.now()` seed; both are parameters here. -/
def MazeGenerator.init (level : ℕ) (canvasWidth canvasHeight zoneHeight : ℚ) (seed : ℕ) :
    Except GenError MazeState :=
  let cols := colsOf level
  let rows := rowsOf level
  let cellSize := cellSizeOf level canvasWidth canvasHeight zoneHeight
  let width := (cols : ℤ) * cellSize
  let height := (rows : ℤ) * cellSize
  match generateMaze cols rows ⟨seed⟩ with
  | .error e => .error e
  | .ok (g, _) =>
    let pr := createEntryAndExits g cols rows
    .ok { level := level
          cols := cols
          rows := rows
          cellSize := cellSize
          width := width
          height := height
          grid := pr.1
          exitColumns := pr.2
          exitZones := buildExitZones (width : ℚ) (height : ℚ) zoneHeight pr.2 cols
          wallRects := buildWallRects pr.1 cols rows cellSize
          entryX := (width : ℚ) / 2
          entryY := (cellSize : ℚ) * (3 / 2) }

/-- The `isWall(x, y)` query: outside the grid bounds counts as wall,
otherwise look the cell up. -/
def MazeState.isWall (m : MazeState) (x y : ℚ) : Bool :=
  let col := ⌊x / (m.cellSize : ℚ)⌋
  let row := ⌊y / (m.cellSize : ℚ)⌋
  if col < 0 ∨ (m.cols : ℤ) ≤ col ∨ row < 0 ∨ (m.rows : ℤ) ≤ row then true
  else m.grid row col == WALL

/-! ## Flood-fill reachability over the finished grid -/

/-- A cell open to the flood fill: Path, Entry or Exit. -/
def openCell (g : Grid) (p : ℤ × ℤ) : Prop :=
  g p.2 p.1 = PATH ∨ g p.2 p.1 = ENTRY ∨ g p.2 p.1 = EXIT

/-- In-bounds positions `(x, y)` of a `cols × rows` grid. -/
def inB (cols rows : ℕ) (p : ℤ × ℤ) : Prop :=
  0 ≤ p.1 ∧ p.1 < (cols : ℤ) ∧ 0 ≤ p.2 ∧ p.2 < (rows : ℤ)

/-- Four-neighbour adjacency: equal on one axis, off by one on the other. -/
def adjacent (p q : ℤ × ℤ) : Prop :=
  (p.1 = q.1 ∧ (p.2 = q.2 + 1 ∨ q.2 = p.2 + 1)) ∨
  (p.2 = q.2 ∧ (p.1 = q.1 + 1 ∨ q.1 = p.1 + 1))

/-- One flood-fill step between two in-bounds open cells. -/
def floodStep (g : Grid) (cols rows : ℕ) (p q : ℤ × ℤ) : Prop :=
  inB cols rows p ∧ inB cols rows q ∧ openCell g p ∧ openCell g q ∧ adjacent p q

/-- Flood-fill reachability over Path/Entry/Exit cells. -/
def FloodReach (g : Grid) (cols rows : ℕ) : ℤ × ℤ → ℤ × ℤ → Prop :=
  Relation.ReflTransGen (floodStep g cols rows)

/-- The entry cell of the maze: row 0 in the column `floor(cols / 2)`. -/
def entryCell (cols : ℕ) : ℤ × ℤ :=
  (((cols / 2 : ℕ) : ℤ), 0)

/-- Strictly interior positions, the only cells the carve ever writes. -/
def interior (cols rows : ℕ) (x y : ℤ) : Prop :=
  0 < x ∧ x < (cols : ℤ) - 1 ∧ 0 < y ∧ y < (rows : ℤ) - 1

/-- A grid whose cells are all Wall or Path (the state during carving,
before entry and exits are punched). -/
def BW (g : Grid) : Prop :=
  ∀ y x : ℤ, g y x = WALL ∨ g y x = PATH

/-- How one carving step may change the grid: each cell is untouched or
turned from Wall to Path, and only strictly interior cells are touched. -/
def Changes (cols rows : ℕ) (g g2 : Grid) : Prop :=
  ∀ y x : ℤ, g2 y x = g y x ∨ (interior cols rows x y ∧ g y x = WALL ∧ g2 y x = PATH)

/-- The number of Wall cells inside the grid box, the termination measure of
the carve recursion. -/
def wallCountI (cols rows : ℕ) (g : Grid) : ℕ :=
  ((Finset.Icc (0 : ℤ) ((cols : ℤ) - 1) ×ˢ Finset.Icc (0 : ℤ) ((rows : ℤ) - 1)).filter
    (fun p => g p.2 p.1 = WALL)).card

/-- Reachability along Path cells where each step leaves a Path cell; the
target needs not be Path yet (used as the carve invariant anchored at the
current cell). -/
def ReachP (g : Grid) : ℤ × ℤ → ℤ × ℤ → Prop :=
  Relation.ReflTransGen (fun p q => adjacent p q ∧ g p.2 p.1 = PATH)

/-! ## ControlsManager (controls.js) -/

/-- The three control methods.  Modelled from the spec: the CONTROL_METHOD
constants live in configuration external to src/; the spec names the three
source values Tilt, Touch, Keyboard. -/
inductive ControlMethod where
  | tilt
  | touch
  | keyboard
deriving DecidableEq, Repr

structure Vec2 where
  x : ℚ
  y : ℚ
deriving DecidableEq, Repr

structure Keys where
  left : Bool
  right : Bool
  up : Bool
  down : Bool
deriving DecidableEq, Repr

structure TouchState where
  active : Bool
  startX : ℚ
  startY : ℚ
  currentX : ℚ
  currentY : ℚ
deriving DecidableEq, Repr

/-- Modelled from the spec: the CONTROL_CONFIG constants (tilt dead zone, max
tilt angle, tilt/touch sensitivity, smoothing factor) are configuration
external to src/ and are taken as parameters. -/
structure ControlConfig where
  deadZone : ℚ
  maxTiltAngle : ℚ
  tiltSensitivity : ℚ
  smoothing : ℚ
deriving DecidableEq, Repr

/-- The mutable state of the ControlsManager relevant to the claims (DOM
element references and availability flags are omitted). -/
structure ControlsManager where
  gravity : Vec2
  rawGravity : Vec2
  activeMethod : ControlMethod
  calibration : Vec2
  keys : Keys
  touch : TouchState
  isLandscape : Bool
deriving DecidableEq, Repr

/-- A device orientation event; `gamma`/`beta` are `none` when the required
angle is absent (the source drops the sample on `=== null`). -/
structure OrientationEvent where
  gamma : Option ℚ
  beta : Option ℚ
deriving DecidableEq, Repr

/-- The `update()` method: keyboard seizes the active source whenever a key
is held, raw gravity accumulates the per-direction contributions scaled by
the sensitivity; then exponential smoothing and the 0.001 drift snap. -/
def ControlsManager.update (cfg : ControlConfig) (st : ControlsManager) : ControlsManager :=
  let keyboardActive := st.keys.left || st.keys.right || st.keys.up || st.keys.down
  let st1 :=
    if keyboardActive then
      let st0 := if st.activeMethod ≠ ControlMethod.keyboard then
        { st with activeMethod := ControlMethod.keyboard } else st
      let rx0 : ℚ := 0
      let ry0 : ℚ := 0
      let rx1 := if st.keys.left then rx0 - cfg.tiltSensitivity else rx0
      let rx2 := if st.keys.right then rx1 + cfg.tiltSensitivity else rx1
      let ry1 := if st.keys.up then ry0 - cfg.tiltSensitivity else ry0
      let ry2 := if st.keys.down then ry1 + cfg.tiltSensitivity else ry1
      { st0 with rawGravity := ⟨rx2, ry2⟩ }
    else if st.activeMethod = ControlMethod.keyboard then
      { st with rawGravity := ⟨0, 0⟩ }
    else st
  let gx0 := st1.gravity.x + (st1.rawGravity.x - st1.gravity.x) * cfg.smoothing
  let gy0 := st1.gravity.y + (st1.rawGravity.y - st1.gravity.y) * cfg.smoothing
  let gx := if |gx0| < 1/1000 then 0 else gx0
  let gy := if |gy0| < 1/1000 then 0 else gy0
  { st1 with gravity := ⟨gx, gy⟩ }

/-- The `_handleDeviceOrientation(event)` handler: drop samples missing an
angle; otherwise promote the active source to Tilt, remap axes for landscape,
subtract the calibration offset, apply the dead zone, clamp to the max tilt
angle, and rescale into the raw gravity vector. -/
def ControlsManager.handleDeviceOrientation (cfg : ControlConfig) (st : ControlsManager)
    (e : OrientationEvent) : ControlsManager :=
  match e.gamma, e.beta with
  | some gamma, some beta =>
    let st1 := if st.activeMethod ≠ ControlMethod.tilt then
      { st with activeMethod := ControlMethod.tilt } else st
    let tiltX0 := if st1.isLandscape then beta else gamma
    let tiltY0 := if st1.isLandscape then -gamma else beta
    let tiltX1 := tiltX0 - st1.calibration.x
    let tiltY1 := tiltY0 - st1.calibration.y
    let tiltX2 := if |tiltX1| < cfg.deadZone then 0 else tiltX1
    let tiltY2 := if |tiltY1| < cfg.deadZone then 0 else tiltY1
    let tiltX3 := max (-cfg.maxTiltAngle) (min cfg.maxTiltAngle tiltX2)
    let tiltY3 := max (-cfg.maxTiltAngle) (min cfg.maxTiltAngle tiltY2)
    { st1 with rawGravity :=
        ⟨tiltX3 / cfg.maxTiltAngle * cfg.tiltSensitivity,
         tiltY3 / cfg.maxTiltAngle * cfg.tiltSensitivity⟩ }
  | _, _ => st

/-- The `calibrate()` method. -/
def ControlsManager.calibrate (cfg : ControlConfig) (st : ControlsManager) : ControlsManager :=
  { st with calibration :=
      ⟨st.rawGravity.x / cfg.tiltSensitivity * cfg.maxTiltAngle,
       st.rawGravity.y / cfg.tiltSensitivity * cfg.maxTiltAngle⟩ }

/-- The `reset()` method (the `_hideJoystick` call only touches the DOM). -/
def ControlsManager.reset (st : ControlsManager) : ControlsManager :=
  { st with gravity := ⟨0, 0⟩
            rawGravity := ⟨0, 0⟩
            keys := ⟨false, false, false, false⟩
            touch := { st.touch with active := false } }

/-- Iterated frames of `update()`. -/
def updateIter (cfg : ControlConfig) (st : ControlsManager) : ℕ → ControlsManager
  | 0 => st
  | n + 1 => ControlsManager.update cfg (updateIter cfg st n)

/-- The output sequence of `next()` called `n` times from a given state. -/
def runSeq (r : SeededRandom) : ℕ → List ℚ
  | 0 => []
  | n + 1 =>
    let p := r.next
    p.1 :: runSeq p.2 n

/-! ## Concrete instances used by witnesses and counterexamples -/

/-- A concrete controls state: tilt active, raw gravity held at `(1, 0)`,
smoothed gravity at the origin, no keys held. -/
def tiltHoldState : ControlsManager :=
  { gravity := ⟨0, 0⟩
    rawGravity := ⟨1, 0⟩
    activeMethod := .tilt
    calibration := ⟨0, 0⟩
    keys := ⟨false, false, false, false⟩
    touch := ⟨false, 0, 0, 0, 0⟩
    isLandscape := false }

/-- A concrete controls state with everything at rest. -/
def restState : ControlsManager :=
  { gravity := ⟨0, 0⟩
    rawGravity := ⟨0, 0⟩
    activeMethod := .tilt
    calibration := ⟨0, 0⟩
    keys := ⟨false, false, false, false⟩
    touch := ⟨false, 0, 0, 0, 0⟩
    isLandscape := false }

/-- A plausible concrete configuration: dead zone 5 degrees, max tilt angle
30 degrees, sensitivity 1, smoothing 1/2. -/
def sampleConfig : ControlConfig := ⟨5, 30, 1, 1/2⟩

/-- The same configuration with a smoothing factor below the 0.001 snap
threshold (still within the spec range (0, 1]). -/
def tinySmoothingConfig : ControlConfig := ⟨5, 30, 1, 1/2048⟩

/-- A concrete controls state holding both the left and the right key. -/
def bothKeysState : ControlsManager :=
  { tiltHoldState with keys := ⟨true, true, false, false⟩ }

/-- The per-axis dead-zone-and-clamp transform applied by
`_handleDeviceOrientation` to a calibrated tilt angle. -/
def clampDz (cfg : ControlConfig) (t : ℚ) : ℚ :=
  max (-cfg.maxTiltAngle) (min cfg.maxTiltAngle (if |t| < cfg.deadZone then 0 else t))

/-- The 0.001 anti-drift snap applied by `update()` to each smoothed axis. -/
def snap (v : ℚ) : ℚ :=
  if |v| < 1/1000 then 0 else v

/-- A default exit zone used as the out-of-range value of list lookups in
statements about the zone list. -/
def zoneDefault : ExitZone := ⟨0, 0, 0, 0, 0, "", "", 0⟩

/-! # Theorems -/

/-! ## C2: SeededRandom.next range and seed update -/

/-- Numbers below the significand bound have no excess bits. -/
theorem excessBits_correct (k n : ℕ) (h : n < 2 ^ 53) : excessBits k n = 0 := by
  cases k with
  | zero => rfl
  | succ k2 =>
    show (if 2 ^ 53 ≤ n then excessBits k2 (n / 2) + 1 else 0) = 0
    rw [if_neg (by omega)]

/-- With enough fuel, `excessBits` lands the shifted value in the binade
`[2^52, 2^53)` (the lower bound holding whenever the input overflows at
all). -/
theorem excessBits_spec :
    ∀ k n : ℕ, n / 2 ^ 53 < 2 ^ k →
      n / 2 ^ excessBits k n < 2 ^ 53 ∧
      (2 ^ 53 ≤ n → 2 ^ 52 ≤ n / 2 ^ excessBits k n ∧ 1 ≤ excessBits k n) := by
  intro k
  induction k with
  | zero =>
    intro n hf
    have h0 : (2 : ℕ) ^ 0 = 1 := pow_zero 2
    rw [h0] at hf
    have hn : n < 2 ^ 53 := by omega
    rw [excessBits_correct 0 n hn, h0, Nat.div_one]
    exact ⟨hn, fun hcon => absurd hn (by omega)⟩
  | succ k2 ih =>
    intro n hf
    by_cases hn : 2 ^ 53 ≤ n
    · have hstep : excessBits (k2 + 1) n = excessBits k2 (n / 2) + 1 := by
        show (if 2 ^ 53 ≤ n then excessBits k2 (n / 2) + 1 else 0) =
          excessBits k2 (n / 2) + 1
        rw [if_pos hn]
      have e1 : n / 2 / 2 ^ 53 = n / 2 ^ 53 / 2 := by
        rw [Nat.div_div_eq_div_mul, Nat.div_div_eq_div_mul, Nat.mul_comm]
      have hf2 : n / 2 / 2 ^ 53 < 2 ^ k2 := by
        rw [e1, Nat.div_lt_iff_lt_mul (by norm_num)]
        calc n / 2 ^ 53 < 2 ^ (k2 + 1) := hf
        _ = 2 ^ k2 * 2 := pow_succ 2 k2
      obtain ⟨ih1, ih2⟩ := ih (n / 2) hf2
      have ediv : n / 2 ^ (excessBits k2 (n / 2) + 1) =
          n / 2 / 2 ^ excessBits k2 (n / 2) := by
        rw [Nat.div_div_eq_div_mul, pow_succ, Nat.mul_comm]
      rw [hstep, ediv]
      refine ⟨ih1, fun _ => ⟨?_, by omega⟩⟩
      by_cases h2 : 2 ^ 53 ≤ n / 2
      · exact (ih2 h2).1
      · push_neg at h2
        rw [excessBits_correct k2 (n / 2) h2, pow_zero, Nat.div_one]
        omega
    · push_neg at hn
      rw [excessBits_correct (k2 + 1) n hn, pow_zero, Nat.div_one]
      exact ⟨hn, fun hcon => absurd hn (by omega)⟩

/-- The binade facts for the scale `fl` actually uses (fuel `n` always
suffices, since the scan needs at most the bit length of `n`). -/
theorem excessBits_self (n : ℕ) :
    n / 2 ^ excessBits n n < 2 ^ 53 ∧
    (2 ^ 53 ≤ n → 2 ^ 52 ≤ n / 2 ^ excessBits n n ∧ 1 ≤ excessBits n n) := by
  refine excessBits_spec n n ?_
  calc n / 2 ^ 53 ≤ n := Nat.div_le_self n (2 ^ 53)
  _ < 2 ^ n := Nat.lt_two_pow n

/-- Rounding is exact below the significand bound. -/
theorem fl_lt (n : ℕ) (h : n < 2 ^ 53) : fl n = n := by
  unfold fl
  simp only []
  rw [excessBits_correct n n h, if_pos rfl]

/-- An overflowing number rounds to an even value: the rounded result is a
multiple of the unit in the last place, which is at least 2. -/
theorem fl_even (n : ℕ) (h : 2 ^ 53 ≤ n) : 2 ∣ fl n := by
  obtain ⟨hq, hs1⟩ := (excessBits_self n).2 h
  have hdvd : 2 ∣ 2 ^ excessBits n n := dvd_pow_self 2 (by omega)
  unfold fl
  simp only []
  rw [if_neg (by omega)]
  split
  · exact Dvd.dvd.mul_left hdvd (n / 2 ^ excessBits n n + 1)
  · exact Dvd.dvd.mul_left hdvd (n / 2 ^ excessBits n n)

/-- Rounding an overflowing number stays at or above the significand
bound. -/
theorem fl_ge (n : ℕ) (h : 2 ^ 53 ≤ n) : 2 ^ 53 ≤ fl n := by
  obtain ⟨hq, hs1⟩ := (excessBits_self n).2 h
  have hpow : 2 ≤ 2 ^ excessBits n n := by
    calc (2 : ℕ) = 2 ^ 1 := (pow_one 2).symm
    _ ≤ 2 ^ excessBits n n := Nat.pow_le_pow_right (by norm_num) hs1
  have hbase : 2 ^ 53 ≤ n / 2 ^ excessBits n n * 2 ^ excessBits n n := by
    calc (2 : ℕ) ^ 53 = 2 ^ 52 * 2 := by norm_num
    _ ≤ n / 2 ^ excessBits n n * 2 ^ excessBits n n := Nat.mul_le_mul hq hpow
  unfold fl
  simp only []
  rw [if_neg (by omega)]
  split
  · calc (2 : ℕ) ^ 53 ≤ n / 2 ^ excessBits n n * 2 ^ excessBits n n := hbase
    _ ≤ (n / 2 ^ excessBits n n + 1) * 2 ^ excessBits n n :=
      Nat.mul_le_mul_right _ (Nat.le_succ _)
  · exact hbase

/-- The masked seed can never be `0x7fffffff`: an odd masked value forces
both roundings to be exact, which pins the seed below the rounding
threshold, while the unique exact-arithmetic preimage of `0x7fffffff`
modulo `2^31` is 230538014, whose product lies far above it. -/
theorem nextMask_ne (n : ℕ) :
    fl (fl (n * 1103515245) + 12345) % 2147483648 ≠ 2147483647 := by
  intro hcon
  by_cases hb : 2 ^ 53 ≤ fl (n * 1103515245) + 12345
  · have h2 := fl_even _ hb
    have hpar : fl (fl (n * 1103515245) + 12345) % 2147483648 % 2 =
        fl (fl (n * 1103515245) + 12345) % 2 :=
      Nat.mod_mod_of_dvd _ (by norm_num)
    rw [hcon, Nat.mod_eq_zero_of_dvd h2] at hpar
    exact absurd hpar (by norm_num)
  · push_neg at hb
    have hA : n * 1103515245 < 2 ^ 53 := by
      by_contra hA2
      push_neg at hA2
      exact absurd hb
        (not_lt.mpr (le_trans (fl_ge _ hA2) (Nat.le_add_right _ 12345)))
    rw [fl_lt _ hA] at hb hcon
    rw [fl_lt (n * 1103515245 + 12345) hb] at hcon
    have hge : 230538014 ≤ n := by
      by_contra hlt2
      push_neg at hlt2
      have hc2 : (230538014 * 1103515245 + 12345) % 2147483648 = 2147483647 := by
        norm_num
      have hmul : n * 1103515245 ≤ 230538014 * 1103515245 :=
        Nat.mul_le_mul_right _ hlt2.le
      have hma : (n * 1103515245 + 12345) ≡
          (230538014 * 1103515245 + 12345) [MOD 2147483648] := by
        unfold Nat.ModEq
        rw [hcon, hc2]
      have hmul2 : n * 1103515245 + 12345 ≤ 230538014 * 1103515245 + 12345 :=
        Nat.add_le_add_right hmul 12345
      have hdvd0 := (Nat.modEq_iff_dvd' hmul2).mp hma
      rw [Nat.add_sub_add_right, ← Nat.sub_mul] at hdvd0
      have hcop : Nat.Coprime 2147483648 1103515245 := by
        have h2 : (2147483648 : ℕ) = 2 ^ 31 := by norm_num
        rw [h2, Nat.coprime_pow_left_iff (by norm_num), Nat.coprime_two_left,
          Nat.odd_iff]
      have hdvd2 : 2147483648 ∣ 230538014 - n := hcop.dvd_of_dvd_mul_right hdvd0
      have hle := Nat.le_of_dvd (Nat.sub_pos_of_lt hlt2) hdvd2
      have hbad : (2147483648 : ℕ) ≤ 230538014 := le_trans hle (Nat.sub_le _ _)
      exact absurd hbad (by norm_num)
    have hbig : 2 ^ 53 ≤ n * 1103515245 := by
      calc (2 : ℕ) ^ 53 ≤ 230538014 * 1103515245 := by norm_num
      _ ≤ n * 1103515245 := Nat.mul_le_mul_right _ hge
    exact absurd hb (not_lt.mpr (le_trans hbig (Nat.le_add_right _ 12345)))

/-- C2, counterexample: the source computes `seed * 1103515245 + 12345` in
binary64, which rounds once the product passes `2^53`.  At seed 230538014
the exact spec formula would give masked seed `0x7fffffff`, but the
rounding the code actually performs (product down to a multiple of 32, then
the sum up) lands on masked seed 0, so `next()` does not mutate the seed by
the exact formula. -/
theorem c2_counterexample :
    (SeededRandom.next ⟨230538014⟩).2.seed = 0 ∧
    (230538014 * 1103515245 + 12345) % 2147483648 = 2147483647 ∧
    (SeededRandom.next ⟨230538014⟩).2.seed ≠
      (230538014 * 1103515245 + 12345) % 2147483648 := by
  refine ⟨?_, by norm_num, ?_⟩
  · with_unfolding_all decide
  · with_unfolding_all decide

/-- C2, amended: `next()` updates the seed to the doubly-rounded
`fl (fl (seed * 1103515245) + 12345) mod 2^31`, which agrees with the
spec formula `(seed * 1103515245 + 12345) mod 2^31` exactly when the sum
stays below `2^53`; and the returned value does lie strictly in `[0, 1)`
for every seed, because the masked value `2^31 - 1` is unreachable: its
only preimage modulo `2^31` under the exact formula lies in the rounding
region, where the computed update is even. -/
theorem c2_next_amended (s : ℕ) :
    0 ≤ (SeededRandom.next ⟨s⟩).1 ∧ (SeededRandom.next ⟨s⟩).1 < 1 ∧
    (SeededRandom.next ⟨s⟩).2.seed =
      fl (fl (s * 1103515245) + 12345) % 2147483648 ∧
    (s * 1103515245 + 12345 < 2 ^ 53 →
      (SeededRandom.next ⟨s⟩).2.seed = (s * 1103515245 + 12345) % 2147483648) := by
  have hnext : SeededRandom.next ⟨s⟩ =
      (((fl (fl (s * 1103515245) + 12345) % 2147483648 : ℕ) : ℚ) / 2147483647,
        ⟨fl (fl (s * 1103515245) + 12345) % 2147483648⟩) := rfl
  have htlt : fl (fl (s * 1103515245) + 12345) % 2147483648 < 2147483648 :=
    Nat.mod_lt _ (by norm_num)
  have htne := nextMask_ne s
  rw [hnext]
  refine ⟨div_nonneg (Nat.cast_nonneg _) (by norm_num), ?_, rfl, ?_⟩
  · rw [div_lt_one (by norm_num : (0 : ℚ) < 2147483647)]
    exact_mod_cast (show fl (fl (s * 1103515245) + 12345) % 2147483648 < 2147483647 by
      omega)
  · intro hsm
    show fl (fl (s * 1103515245) + 12345) % 2147483648 =
      (s * 1103515245 + 12345) % 2147483648
    rw [fl_lt (s * 1103515245) (by omega), fl_lt (s * 1103515245 + 12345) hsm]

/-- C2, witness: at the concrete seed 1 the sum is exact, so the update
follows the spec formula, and the returned value is strictly below 1. -/
theorem c2_witness :
    (SeededRandom.next ⟨1⟩).2.seed = (1 * 1103515245 + 12345) % 2147483648 ∧
    (SeededRandom.next ⟨1⟩).1 < 1 :=
  ⟨(c2_next_amended 1).2.2.2 (by norm_num), (c2_next_amended 1).2.1⟩

/-! ## C5: keyboard seizes the active source and raw gravity is the
scaled sum of key contributions -/

/-- C5: whenever at least one directional key is held, `update()` forces the
active source to Keyboard (whatever it was before, including Tilt) and sets
the raw vector to the sum of unit contributions per held direction (left -1,
right +1 on x; up -1, down +1 on y) scaled by the sensitivity constant; in
particular holding both left and right yields raw x = 0. -/
theorem c5_keyboard_priority (cfg : ControlConfig) (st : ControlsManager)
    (h : st.keys.left = true ∨ st.keys.right = true ∨ st.keys.up = true ∨ st.keys.down = true) :
    (st.update cfg).activeMethod = ControlMethod.keyboard ∧
    (st.update cfg).rawGravity.x =
      ((if st.keys.right = true then (1 : ℚ) else 0) -
        (if st.keys.left = true then 1 else 0)) * cfg.tiltSensitivity ∧
    (st.update cfg).rawGravity.y =
      ((if st.keys.down = true then (1 : ℚ) else 0) -
        (if st.keys.up = true then 1 else 0)) * cfg.tiltSensitivity ∧
    (st.keys.left = true → st.keys.right = true → (st.update cfg).rawGravity.x = 0) := by
  by_cases hm : st.activeMethod = ControlMethod.keyboard <;>
    cases hl : st.keys.left <;> cases hr : st.keys.right <;>
    cases hu : st.keys.up <;> cases hd : st.keys.down <;>
    simp_all [ControlsManager.update]

/-- C5, witness: from a tilt-active state with both left and right held,
`update()` switches to Keyboard and the opposing keys cancel to raw x = 0. -/
theorem c5_witness :
    (bothKeysState.update sampleConfig).activeMethod = ControlMethod.keyboard ∧
    (bothKeysState.update sampleConfig).rawGravity.x = 0 :=
  ⟨(c5_keyboard_priority sampleConfig bothKeysState (Or.inl rfl)).1,
   (c5_keyboard_priority sampleConfig bothKeysState (Or.inl rfl)).2.2.2 rfl rfl⟩

/-! ## C7: determinism of the SeededRandom sequence -/

/-- C7: two runs of `next()` called `n` times from equal seeds produce
identical output sequences (the generator state is exactly the seed). -/
theorem c7_determinism (r1 r2 : SeededRandom) (h : r1.seed = r2.seed) (n : ℕ) :
    runSeq r1 n = runSeq r2 n := by
  have heq : r1 = r2 := by
    cases r1
    cases r2
    simpa using h
  rw [heq]

/-- C7, witness: two five-draw runs from seed 123 coincide. -/
theorem c7_witness : runSeq ⟨123⟩ 5 = runSeq ⟨123⟩ 5 :=
  c7_determinism ⟨123⟩ ⟨123⟩ rfl 5

/-! ## C9: samples with a missing angle are dropped -/

/-- C9: an orientation event missing either required angle is silently
dropped; raw gravity, smoothed gravity, the active source and the
calibration offset are all left unchanged. -/
theorem c9_invalid_sample (cfg : ControlConfig) (st : ControlsManager) (e : OrientationEvent)
    (h : e.gamma = none ∨ e.beta = none) :
    (st.handleDeviceOrientation cfg e).rawGravity = st.rawGravity ∧
    (st.handleDeviceOrientation cfg e).gravity = st.gravity ∧
    (st.handleDeviceOrientation cfg e).activeMethod = st.activeMethod ∧
    (st.handleDeviceOrientation cfg e).calibration = st.calibration := by
  obtain ⟨og, ob⟩ := e
  have hdrop : st.handleDeviceOrientation cfg ⟨og, ob⟩ = st := by
    cases og <;> cases ob <;> simp_all [ControlsManager.handleDeviceOrientation]
  rw [hdrop]
  exact ⟨rfl, rfl, rfl, rfl⟩

/-- C9, witness: a sample with `gamma` absent leaves the rest state intact. -/
theorem c9_witness :
    (restState.handleDeviceOrientation sampleConfig ⟨none, some 3⟩).rawGravity =
      restState.rawGravity :=
  (c9_invalid_sample sampleConfig restState ⟨none, some 3⟩ (Or.inl rfl)).1

/-! ## C10: reset zeroes motion state and keeps the rest -/

/-- C10: `reset()` zeroes the gravity vector, the raw gravity vector, all
four key-held flags and the touch-active flag, while leaving the active
source, the calibration offset and the recorded touch start/current
coordinates unchanged. -/
theorem c10_reset (st : ControlsManager) :
    st.reset.gravity = ⟨0, 0⟩ ∧
    st.reset.rawGravity = ⟨0, 0⟩ ∧
    st.reset.keys = ⟨false, false, false, false⟩ ∧
    st.reset.touch.active = false ∧
    st.reset.activeMethod = st.activeMethod ∧
    st.reset.calibration = st.calibration ∧
    st.reset.touch.startX = st.touch.startX ∧
    st.reset.touch.startY = st.touch.startY ∧
    st.reset.touch.currentX = st.touch.currentX ∧
    st.reset.touch.currentY = st.touch.currentY := by
  simp [ControlsManager.reset]

/-! ## C6: gravity smoothing convergence -/

/-- With no key held and an active source other than Keyboard, `update()`
only smooths and snaps the gravity vector. -/
theorem update_noKeys (cfg : ControlConfig) (st : ControlsManager)
    (hkeys : st.keys = ⟨false, false, false, false⟩)
    (hm : st.activeMethod ≠ ControlMethod.keyboard) :
    st.update cfg = { st with gravity :=
      ⟨snap (st.gravity.x + (st.rawGravity.x - st.gravity.x) * cfg.smoothing),
       snap (st.gravity.y + (st.rawGravity.y - st.gravity.y) * cfg.smoothing)⟩ } := by
  unfold ControlsManager.update snap
  simp [hkeys, hm]

/-- Closed form for the iterated frames while tilt holds the raw vector at
`(1, 0)`: after `n` frames the smoothed gravity is
`(1 - (1 - smoothing)^n, 0)`, provided the smoothing factor is at least the
0.001 snap threshold and at most 1. -/
theorem updateIter_tiltHold_closedForm (cfg : ControlConfig) (st : ControlsManager)
    (ha1 : 1/1000 ≤ cfg.smoothing) (ha2 : cfg.smoothing ≤ 1)
    (hraw : st.rawGravity = ⟨1, 0⟩) (hg : st.gravity = ⟨0, 0⟩)
    (hkeys : st.keys = ⟨false, false, false, false⟩)
    (hm : st.activeMethod = ControlMethod.tilt) :
    ∀ n, updateIter cfg st n = { st with gravity := ⟨1 - (1 - cfg.smoothing) ^ n, 0⟩ } := by
  have hr0 : 0 ≤ 1 - cfg.smoothing := by linarith
  have hr1 : 1 - cfg.smoothing ≤ 1 := by linarith
  intro n
  induction n with
  | zero =>
    simp only [updateIter, pow_zero]
    norm_num
    rw [← hg]
  | succ n ih =>
    have hpow : (1 - cfg.smoothing) ^ (n + 1) ≤ 1 - cfg.smoothing := by
      calc (1 - cfg.smoothing) ^ (n + 1)
          = (1 - cfg.smoothing) * (1 - cfg.smoothing) ^ n := by ring
        _ ≤ (1 - cfg.smoothing) * 1 :=
            mul_le_mul_of_nonneg_left (pow_le_one₀ hr0 hr1) hr0
        _ = 1 - cfg.smoothing := by ring
    have hlow : 1/1000 ≤ 1 - (1 - cfg.smoothing) ^ (n + 1) := by linarith
    rw [updateIter, ih, update_noKeys cfg _ (by simpa using hkeys) (by simp [hm])]
    simp only [hraw]
    have hxv : (1 - (1 - cfg.smoothing) ^ n) +
        ((1 : ℚ) - (1 - (1 - cfg.smoothing) ^ n)) * cfg.smoothing =
        1 - (1 - cfg.smoothing) ^ (n + 1) := by ring
    have hsx : snap ((1 - (1 - cfg.smoothing) ^ n) +
        ((1 : ℚ) - (1 - (1 - cfg.smoothing) ^ n)) * cfg.smoothing) =
        1 - (1 - cfg.smoothing) ^ (n + 1) := by
      rw [hxv]
      unfold snap
      rw [if_neg]
      rw [abs_of_nonneg (by linarith)]
      intro hcon
      linarith
    have hsy : snap ((0 : ℚ) + (0 - 0) * cfg.smoothing) = 0 := by
      unfold snap
      norm_num
    rw [hsx, hsy]

/-- C6, counterexample: the claim fails in two ways on spec-allowed
smoothing factors.  With smoothing 1/2, after 10 frames gravity.x is within
the 0.001 drift epsilon of 1, yet the 11th `update()` still changes it — in
exact arithmetic the value never stabilizes short of 1.  With smoothing
1/2048 (inside the spec range (0, 1]), the very first smoothed value falls
under the 0.001 snap and the state is a fixed point of `update()` with
gravity.x = 0, so gravity.x does not approach 1 at all. -/
theorem c6_counterexample :
    (1/1000 ≤ sampleConfig.smoothing ∧ sampleConfig.smoothing ≤ 1 ∧
      |1 - (updateIter sampleConfig tiltHoldState 10).gravity.x| < 1/1000 ∧
      (updateIter sampleConfig tiltHoldState 11).gravity.x ≠
        (updateIter sampleConfig tiltHoldState 10).gravity.x) ∧
    (0 < tinySmoothingConfig.smoothing ∧ tinySmoothingConfig.smoothing ≤ 1 ∧
      tiltHoldState.rawGravity.x = 1 ∧ tiltHoldState.gravity.x = 0 ∧
      ControlsManager.update tinySmoothingConfig tiltHoldState = tiltHoldState) := by
  set_option maxRecDepth 100000 in with_unfolding_all decide

/-- C6, amended: if the raw vector is held constant at `(1, 0)` under tilt,
gravity starts at `(0, 0)`, and the smoothing factor lies between the 0.001
drift epsilon and 1, then gravity.x is non-decreasing, never exceeds 1, and
comes within any positive distance of 1; in exact arithmetic an `update()`
leaves gravity.x unchanged only at the fixed point 1 (the finite-time
stabilization short of 1 described by the claim is floating-point rounding,
and smoothing factors below the epsilon stall at 0 instead). -/
theorem c6_smoothing_amended (cfg : ControlConfig) (st : ControlsManager)
    (ha1 : 1/1000 ≤ cfg.smoothing) (ha2 : cfg.smoothing ≤ 1)
    (hraw : st.rawGravity = ⟨1, 0⟩) (hg : st.gravity = ⟨0, 0⟩)
    (hkeys : st.keys = ⟨false, false, false, false⟩)
    (hm : st.activeMethod = ControlMethod.tilt) :
    (∀ n, (updateIter cfg st n).gravity.x ≤ (updateIter cfg st (n + 1)).gravity.x) ∧
    (∀ n, (updateIter cfg st n).gravity.x ≤ 1) ∧
    (∀ δ : ℚ, 0 < δ → ∃ N, 1 - δ < (updateIter cfg st N).gravity.x) ∧
    (∀ n, (updateIter cfg st n).gravity.x = 1 →
      updateIter cfg st (n + 1) = updateIter cfg st n) := by
  have hr0 : 0 ≤ 1 - cfg.smoothing := by linarith
  have hr1 : 1 - cfg.smoothing < 1 := by linarith
  have hcf := updateIter_tiltHold_closedForm cfg st ha1 ha2 hraw hg hkeys hm
  have hx : ∀ n, (updateIter cfg st n).gravity.x = 1 - (1 - cfg.smoothing) ^ n := by
    intro n
    rw [hcf n]
  refine ⟨?_, ?_, ?_, ?_⟩
  · intro n
    rw [hx n, hx (n + 1)]
    have : (1 - cfg.smoothing) ^ (n + 1) ≤ (1 - cfg.smoothing) ^ n :=
      pow_le_pow_of_le_one hr0 hr1.le (Nat.le_succ n)
    linarith
  · intro n
    rw [hx n]
    have : 0 ≤ (1 - cfg.smoothing) ^ n := pow_nonneg hr0 n
    linarith
  · intro δ hδ
    obtain ⟨N, hN⟩ := exists_pow_lt_of_lt_one hδ hr1
    exact ⟨N, by rw [hx N]; linarith⟩
  · intro n hn
    rw [hx n] at hn
    have hz : (1 - cfg.smoothing) ^ n = 0 := by linarith
    rw [hcf n, hcf (n + 1), pow_succ, hz, zero_mul]

/-- C6, witness: the amended theorem applied to the concrete configuration
with smoothing 1/2 and the tilt-hold state. -/
theorem c6_witness :
    (updateIter sampleConfig tiltHoldState 3).gravity.x ≤
      (updateIter sampleConfig tiltHoldState 4).gravity.x ∧
    (updateIter sampleConfig tiltHoldState 5).gravity.x ≤ 1 :=
  ⟨(c6_smoothing_amended sampleConfig tiltHoldState (by norm_num [sampleConfig])
      (by norm_num [sampleConfig]) rfl rfl rfl rfl).1 3,
   (c6_smoothing_amended sampleConfig tiltHoldState (by norm_num [sampleConfig])
      (by norm_num [sampleConfig]) rfl rfl rfl rfl).2.1 5⟩

/-! ## C8: calibrate zeroes the current reading -/

/-- The dead-zone-and-clamp transform kills the recalibrated reading when
the original calibrated tilt was inside the clamp range. -/
theorem clampDz_cancel (cfg : ControlConfig) (t : ℚ) (hmax : 0 < cfg.maxTiltAngle)
    (ht : |t| ≤ cfg.maxTiltAngle) :
    clampDz cfg (t - clampDz cfg t) = 0 := by
  have hz : clampDz cfg 0 = 0 := by
    unfold clampDz
    have h0 : (if |(0 : ℚ)| < cfg.deadZone then (0 : ℚ) else 0) = 0 := by
      split <;> rfl
    rw [h0, min_eq_right hmax.le, max_eq_right (neg_nonpos.mpr hmax.le)]
  by_cases hdz : |t| < cfg.deadZone
  · have h1 : clampDz cfg t = 0 := by
      unfold clampDz
      rw [if_pos hdz, min_eq_right hmax.le, max_eq_right (neg_nonpos.mpr hmax.le)]
    rw [h1, sub_zero, h1]
  · have h1 : clampDz cfg t = t := by
      unfold clampDz
      rw [if_neg hdz, min_eq_right (abs_le.mp ht).2, max_eq_right (abs_le.mp ht).1]
    rw [h1, sub_self, hz]

/-- The raw gravity written by a valid orientation sample, in terms of
`clampDz`. -/
theorem handle_rawGravity (cfg : ControlConfig) (st : ControlsManager) (gamma beta : ℚ) :
    (st.handleDeviceOrientation cfg ⟨some gamma, some beta⟩).rawGravity =
      ⟨clampDz cfg ((if st.isLandscape then beta else gamma) - st.calibration.x) /
          cfg.maxTiltAngle * cfg.tiltSensitivity,
       clampDz cfg ((if st.isLandscape then -gamma else beta) - st.calibration.y) /
          cfg.maxTiltAngle * cfg.tiltSensitivity⟩ := by
  by_cases hAM : st.activeMethod = ControlMethod.tilt <;>
    simp [ControlsManager.handleDeviceOrientation, hAM, clampDz]

/-- A valid orientation sample does not change the calibration offset or the
orientation flag. -/
theorem handle_keepsFields (cfg : ControlConfig) (st : ControlsManager) (gamma beta : ℚ) :
    (st.handleDeviceOrientation cfg ⟨some gamma, some beta⟩).calibration = st.calibration ∧
    (st.handleDeviceOrientation cfg ⟨some gamma, some beta⟩).isLandscape = st.isLandscape := by
  by_cases hAM : st.activeMethod = ControlMethod.tilt <;>
    simp [ControlsManager.handleDeviceOrientation, hAM]

/-- C8, counterexample: the claim fails on the code in two ways (with the
plausible configuration dead zone 5, max angle 30, sensitivity 1).  A sample
tilted past the max angle (gamma 40) is clamped, so after `calibrate()` the
repeated sample still reads 10 degrees and raw gravity is not `(0, 0)`.
And from a state with a nonzero prior offset (50) reading zero, `calibrate()`
overwrites the offset with the zero reading instead of keeping it, so the
repeated sample (gamma 50) yields a full-scale raw vector. -/
theorem c8_counterexample :
    ((((restState.handleDeviceOrientation sampleConfig ⟨some 40, some 0⟩).calibrate
        sampleConfig).handleDeviceOrientation sampleConfig
          ⟨some 40, some 0⟩).rawGravity ≠ ⟨0, 0⟩) ∧
    (((({ restState with calibration := ⟨50, 0⟩ }.handleDeviceOrientation sampleConfig
        ⟨some 50, some 0⟩).calibrate sampleConfig).handleDeviceOrientation sampleConfig
          ⟨some 50, some 0⟩).rawGravity ≠ ⟨0, 0⟩) := by
  with_unfolding_all decide

/-- C8, amended: for every valid orientation sample whose per-axis tilt
magnitude is at most maxTiltAngle (so the clamp does not engage), processed
from a state with zero calibration offset, calling `calibrate()` after
processing it and delivering the identical sample again yields raw gravity
exactly `(0, 0)`; samples beyond the clamp range, or states with a nonzero
prior offset, are not zeroed because `calibrate()` stores the clamped
current reading as the new offset rather than composing offsets. -/
theorem c8_calibrate_amended (cfg : ControlConfig) (st : ControlsManager) (gamma beta : ℚ)
    (hmax : 0 < cfg.maxTiltAngle) (hs : cfg.tiltSensitivity ≠ 0)
    (hcal : st.calibration = ⟨0, 0⟩)
    (hgm : |gamma| ≤ cfg.maxTiltAngle) (hbm : |beta| ≤ cfg.maxTiltAngle) :
    (((st.handleDeviceOrientation cfg ⟨some gamma, some beta⟩).calibrate
        cfg).handleDeviceOrientation cfg ⟨some gamma, some beta⟩).rawGravity = ⟨0, 0⟩ := by
  set st1 := st.handleDeviceOrientation cfg ⟨some gamma, some beta⟩ with hst1
  set st2 := st1.calibrate cfg with hst2
  set tx := (if st.isLandscape then beta else gamma) with htx
  set ty := (if st.isLandscape then -gamma else beta) with hty
  have htxm : |tx| ≤ cfg.maxTiltAngle := by
    rw [htx]
    split <;> assumption
  have htym : |ty| ≤ cfg.maxTiltAngle := by
    rw [hty]
    split
    · rwa [abs_neg]
    · assumption
  have hraw1 : st1.rawGravity =
      ⟨clampDz cfg tx / cfg.maxTiltAngle * cfg.tiltSensitivity,
       clampDz cfg ty / cfg.maxTiltAngle * cfg.tiltSensitivity⟩ := by
    rw [hst1, handle_rawGravity, hcal]
    simp
  have hfields1 := handle_keepsFields cfg st gamma beta
  have hcal2 : st2.calibration = ⟨clampDz cfg tx, clampDz cfg ty⟩ := by
    rw [hst2]
    unfold ControlsManager.calibrate
    rw [hraw1]
    have hcan : ∀ c : ℚ, c / cfg.maxTiltAngle * cfg.tiltSensitivity / cfg.tiltSensitivity *
        cfg.maxTiltAngle = c := by
      intro c
      field_simp
      ring
    simp only [hcan]
  have hland2 : st2.isLandscape = st.isLandscape := by
    rw [hst2]
    unfold ControlsManager.calibrate
    simpa using hfields1.2
  rw [handle_rawGravity, hcal2, hland2, ← htx, ← hty]
  rw [clampDz_cancel cfg tx hmax htxm, clampDz_cancel cfg ty hmax htym]
  simp

/-- C8, witness: the amended theorem at the concrete configuration, the rest
state and a sample inside the clamp range. -/
theorem c8_witness :
    (((restState.handleDeviceOrientation sampleConfig ⟨some 10, some (-7)⟩).calibrate
        sampleConfig).handleDeviceOrientation sampleConfig
          ⟨some 10, some (-7)⟩).rawGravity = ⟨0, 0⟩ :=
  c8_calibrate_amended sampleConfig restState 10 (-7) (by norm_num [sampleConfig])
    (by norm_num [sampleConfig]) rfl (by norm_num [sampleConfig]) (by norm_num [sampleConfig])

/-! ## Field extraction for a successful init -/

/-- Shape of the state produced by a successful `init`. -/
theorem init_ok_elim {level : ℕ} {cw ch zh : ℚ} {seed : ℕ} {m : MazeState}
    (h : MazeGenerator.init level cw ch zh seed = .ok m) :
    ∃ g r2, generateMaze (colsOf level) (rowsOf level) ⟨seed⟩ = .ok (g, r2) ∧
      m = { level := level
            cols := colsOf level
            rows := rowsOf level
            cellSize := cellSizeOf level cw ch zh
            width := (colsOf level : ℤ) * cellSizeOf level cw ch zh
            height := (rowsOf level : ℤ) * cellSizeOf level cw ch zh
            grid := (createEntryAndExits g (colsOf level) (rowsOf level)).1
            exitColumns := (createEntryAndExits g (colsOf level) (rowsOf level)).2
            exitZones := buildExitZones ((colsOf level : ℤ) * cellSizeOf level cw ch zh : ℤ)
              ((rowsOf level : ℤ) * cellSizeOf level cw ch zh : ℤ) zh
              (createEntryAndExits g (colsOf level) (rowsOf level)).2 (colsOf level)
            wallRects := buildWallRects (createEntryAndExits g (colsOf level) (rowsOf level)).1
              (colsOf level) (rowsOf level) (cellSizeOf level cw ch zh)
            entryX := ((colsOf level : ℤ) * cellSizeOf level cw ch zh : ℤ) / 2
            entryY := (cellSizeOf level cw ch zh : ℚ) * (3 / 2) } := by
  unfold MazeGenerator.init at h
  simp only [] at h
  cases hgen : generateMaze (colsOf level) (rowsOf level) ⟨seed⟩ with
  | error e =>
    rw [hgen] at h
    cases h
  | ok pr =>
    obtain ⟨g, r2⟩ := pr
    rw [hgen] at h
    simp only [Except.ok.injEq] at h
    exact ⟨g, r2, rfl, h.symm⟩

/-- The cell size after `init` is at least the 20-pixel floor. -/
theorem cellSizeOf_ge (level : ℕ) (cw ch zh : ℚ) : 20 ≤ cellSizeOf level cw ch zh :=
  le_max_right _ _

/-! ## C3: exit zone tiling -/

/-- The five zones produced by `_buildExitZones`, indexed. -/
theorem buildExitZones_getD (w h zh : ℚ) (ec : List ℤ) (cols : ℕ) (i : ℕ) (hi : i < 5) :
    ((buildExitZones w h zh ec cols).getD i zoneDefault).x = (i : ℚ) * (w / 5) ∧
    ((buildExitZones w h zh ec cols).getD i zoneDefault).width = w / 5 := by
  have hr : List.range 5 = [0, 1, 2, 3, 4] := rfl
  interval_cases i <;>
    simp [buildExitZones, hr, zoneDefault]

/-- C3: after any `init`, the five exit zones tile the bottom edge: their
widths sum exactly to the maze pixel width, each zone starts where the
previous one ends, and zones never overlap. -/
theorem c3_exit_zone_tiling (level : ℕ) (cw ch zh : ℚ) (seed : ℕ) (m : MazeState)
    (h : MazeGenerator.init level cw ch zh seed = .ok m) :
    m.exitZones.length = 5 ∧
    (m.exitZones.map ExitZone.width).sum = (m.width : ℚ) ∧
    (∀ i, i + 1 < 5 →
      (m.exitZones.getD (i + 1) zoneDefault).x =
        (m.exitZones.getD i zoneDefault).x + (m.exitZones.getD i zoneDefault).width) ∧
    (∀ i j, i < j → j < 5 →
      (m.exitZones.getD i zoneDefault).x + (m.exitZones.getD i zoneDefault).width ≤
        (m.exitZones.getD j zoneDefault).x) := by
  obtain ⟨g, r2, hgen, hm⟩ := init_ok_elim h
  have hcs : (20 : ℤ) ≤ cellSizeOf level cw ch zh := cellSizeOf_ge level cw ch zh
  have hwnn : 0 ≤ ((m.width : ℤ) : ℚ) := by
    rw [hm]
    have h1 : (0 : ℤ) ≤ (colsOf level : ℤ) * cellSizeOf level cw ch zh :=
      mul_nonneg (Int.natCast_nonneg _) (by omega)
    exact_mod_cast h1
  have hzones : m.exitZones = buildExitZones (m.width : ℚ) (m.height : ℚ) zh m.exitColumns m.cols := by
    rw [hm]
  refine ⟨?_, ?_, ?_, ?_⟩
  · rw [hzones]
    simp [buildExitZones]
  · rw [hzones]
    have hr : List.range 5 = [0, 1, 2, 3, 4] := rfl
    simp [buildExitZones, hr]
    ring
  · intro i hi
    rw [hzones]
    have h1 := buildExitZones_getD (m.width : ℚ) (m.height : ℚ) zh m.exitColumns m.cols (i + 1) hi
    have h2 := buildExitZones_getD (m.width : ℚ) (m.height : ℚ) zh m.exitColumns m.cols i
      (by omega)
    rw [h1.1, h2.1, h2.2]
    push_cast
    ring
  · intro i j hij hj
    rw [hzones]
    have h1 := buildExitZones_getD (m.width : ℚ) (m.height : ℚ) zh m.exitColumns m.cols i
      (by omega)
    have h2 := buildExitZones_getD (m.width : ℚ) (m.height : ℚ) zh m.exitColumns m.cols j hj
    rw [h1.1, h1.2, h2.1]
    have hw5 : 0 ≤ (m.width : ℚ) / 5 := by positivity
    have hij2 : ((i : ℚ) + 1) ≤ (j : ℚ) := by
      have : (i : ℚ) + 1 = ((i + 1 : ℕ) : ℚ) := by push_cast; ring
      rw [this]
      exact_mod_cast hij
    calc (i : ℚ) * ((m.width : ℚ) / 5) + (m.width : ℚ) / 5
        = ((i : ℚ) + 1) * ((m.width : ℚ) / 5) := by ring
      _ ≤ (j : ℚ) * ((m.width : ℚ) / 5) := mul_le_mul_of_nonneg_right hij2 hw5

/-! ## C4: isWall boundary containment -/

/-- C4: after any `init`, `isWall` returns true for every point outside the
maze bounds, and for in-bounds points it returns true exactly when the
point's cell (the cell containing the point, by pixel-to-cell flooring) is a
Wall cell. -/
theorem c4_isWall_boundary (level : ℕ) (cw ch zh : ℚ) (seed : ℕ) (m : MazeState)
    (h : MazeGenerator.init level cw ch zh seed = .ok m) (x y : ℚ) :
    ((x < 0 ∨ y < 0 ∨ (m.width : ℚ) ≤ x ∨ (m.height : ℚ) ≤ y) → m.isWall x y = true) ∧
    (0 ≤ x → x < (m.width : ℚ) → 0 ≤ y → y < (m.height : ℚ) →
      (m.isWall x y = true ↔
        m.grid ⌊y / (m.cellSize : ℚ)⌋ ⌊x / (m.cellSize : ℚ)⌋ = WALL)) := by
  obtain ⟨g, r2, hgen, hm⟩ := init_ok_elim h
  have hcs : (20 : ℤ) ≤ m.cellSize := by
    rw [hm]
    exact cellSizeOf_ge level cw ch zh
  have hcsq : (0 : ℚ) < (m.cellSize : ℚ) := by
    have : (0 : ℤ) < m.cellSize := by omega
    exact_mod_cast this
  have hw : (m.width : ℚ) = (m.cols : ℚ) * (m.cellSize : ℚ) := by
    rw [hm]
    push_cast
    ring
  have hh : (m.height : ℚ) = (m.rows : ℚ) * (m.cellSize : ℚ) := by
    rw [hm]
    push_cast
    ring
  constructor
  · intro hout
    unfold MazeState.isWall
    rw [if_pos]
    rcases hout with hx | hy | hx | hy
    · left
      rw [Int.floor_lt]
      push_cast
      exact div_neg_of_neg_of_pos hx hcsq
    · right; right; left
      rw [Int.floor_lt]
      push_cast
      exact div_neg_of_neg_of_pos hy hcsq
    · right; left
      rw [Int.le_floor]
      push_cast
      rw [le_div_iff₀ hcsq]
      rw [hw] at hx
      linarith
    · right; right; right
      rw [Int.le_floor]
      push_cast
      rw [le_div_iff₀ hcsq]
      rw [hh] at hy
      linarith
  · intro hx0 hxw hy0 hyh
    unfold MazeState.isWall
    rw [if_neg]
    · simp
    · push_neg
      refine ⟨?_, ?_, ?_, ?_⟩
      · exact Int.le_floor.mpr (by positivity)
      · rw [Int.floor_lt]
        push_cast
        rw [div_lt_iff₀ hcsq]
        rw [hw] at hxw
        linarith
      · exact Int.le_floor.mpr (by positivity)
      · rw [Int.floor_lt]
        push_cast
        rw [div_lt_iff₀ hcsq]
        rw [hh] at hyh
        linarith

set_option maxRecDepth 100000 in
/-- A concrete successful generation: level 1 on a 500 x 500 canvas with
exit-zone height 60 and seed 1. -/
theorem initExample_isOk : (MazeGenerator.init 1 500 500 60 1).isOk = true := by
  with_unfolding_all decide

/-- C3, witness: the tiling facts hold on the concrete level-1 maze. -/
theorem c3_witness : ∃ m, MazeGenerator.init 1 500 500 60 1 = .ok m ∧
    (m.exitZones.map ExitZone.width).sum = (m.width : ℚ) ∧ m.exitZones.length = 5 := by
  have hok := initExample_isOk
  cases hm : MazeGenerator.init 1 500 500 60 1 with
  | error e =>
    rw [hm] at hok
    simp [Except.isOk, Except.toBool] at hok
  | ok m =>
    have ht := c3_exit_zone_tiling 1 500 500 60 1 m hm
    exact ⟨m, rfl, ht.2.1, ht.1⟩

/-- C4, witness: on the concrete level-1 maze, the out-of-bounds point
`(-1, 5)` is reported as wall. -/
theorem c4_witness : ∃ m, MazeGenerator.init 1 500 500 60 1 = .ok m ∧
    m.isWall (-1) 5 = true := by
  have hok := initExample_isOk
  cases hm : MazeGenerator.init 1 500 500 60 1 with
  | error e =>
    rw [hm] at hok
    simp [Except.isOk, Except.toBool] at hok
  | ok m =>
    exact ⟨m, rfl, (c4_isWall_boundary 1 500 500 60 1 m hm (-1) 5).1 (by norm_num)⟩

/-! ## C1, layer A: the shuffle returns a permutation of its input -/

/-- Replacing the element at `j` while keeping it in front is a permutation
of consing the new element. -/
theorem cons_set_perm : ∀ (xs : List α) (j : ℕ) (b x : α), xs[j]? = some b →
    List.Perm (b :: xs.set j x) (x :: xs) := by
  intro xs
  induction xs with
  | nil =>
    intro j b x h
    simp at h
  | cons c t ih =>
    intro j b x h
    cases j with
    | zero =>
      simp at h
      subst h
      exact List.Perm.swap x c t
    | succ j2 =>
      simp only [List.getElem?_cons_succ] at h
      have h1 := ih j2 b x h
      have s1 : List.Perm (b :: c :: t.set j2 x) (c :: b :: t.set j2 x) := List.Perm.swap c b _
      have s2 : List.Perm (c :: b :: t.set j2 x) (c :: x :: t) := List.Perm.cons c h1
      have s3 : List.Perm (c :: x :: t) (x :: c :: t) := List.Perm.swap x c t
      exact (s1.trans s2).trans s3

/-- The double `set` of a swap permutes the list. -/
theorem setSet_perm : ∀ (l : List α) (i j : ℕ) (a b : α),
    l[i]? = some a → l[j]? = some b → List.Perm ((l.set i b).set j a) l := by
  intro l
  induction l with
  | nil =>
    intro i j a b ha
    simp at ha
  | cons c t ih =>
    intro i j a b ha hb
    cases i with
    | zero =>
      simp only [List.getElem?_cons_zero, Option.some.injEq] at ha
      cases j with
      | zero =>
        simp only [List.getElem?_cons_zero, Option.some.injEq] at hb
        subst ha
        subst hb
        exact List.Perm.refl _
      | succ j2 =>
        simp only [List.getElem?_cons_succ] at hb
        subst ha
        show List.Perm (b :: t.set j2 c) (c :: t)
        exact cons_set_perm t j2 b c hb
    | succ i2 =>
      simp only [List.getElem?_cons_succ] at ha
      cases j with
      | zero =>
        simp only [List.getElem?_cons_zero, Option.some.injEq] at hb
        subst hb
        show List.Perm (a :: t.set i2 c) (c :: t)
        exact cons_set_perm t i2 a c ha
      | succ j2 =>
        simp only [List.getElem?_cons_succ] at hb
        show List.Perm (c :: (t.set i2 b).set j2 a) (c :: t)
        exact List.Perm.cons c (ih i2 j2 a b ha hb)

/-- A successful Fisher-Yates swap permutes the list. -/
theorem swapIdx_perm : ∀ (l : List α) (i : ℕ) (j : ℤ) (l2 : List α),
    swapIdx l i j = some l2 → List.Perm l2 l := by
  intro l i j l2 h
  cases j with
  | negSucc jn =>
    simp [swapIdx] at h
  | ofNat jn =>
    simp only [swapIdx] at h
    cases ha : l[i]? with
    | none =>
      rw [ha] at h
      simp at h
    | some a =>
      rw [ha] at h
      cases hb : l[jn]? with
      | none =>
        rw [hb] at h
        simp at h
      | some b =>
        rw [hb] at h
        simp only [Option.some.injEq] at h
        rw [← h]
        exact setSet_perm l i jn a b ha hb

/-- The shuffle loop permutes the array whenever it succeeds. -/
theorem shuffleFrom_perm : ∀ (i : ℕ) (r : SeededRandom) (arr arr2 : List α)
    (r2 : SeededRandom), shuffleFrom r arr i = (.ok arr2, r2) → List.Perm arr2 arr := by
  intro i
  induction i with
  | zero =>
    intro r arr arr2 r2 h
    simp [shuffleFrom] at h
    rw [h.1]
  | succ i2 ih =>
    intro r arr arr2 r2 h
    unfold shuffleFrom at h
    simp only [] at h
    cases hsw : swapIdx arr (i2 + 1) (r.nextInt 0 ((i2 : ℤ) + 2)).1 with
    | none =>
      rw [hsw] at h
      simp at h
    | some arrMid =>
      rw [hsw] at h
      have h1 := ih _ arrMid arr2 r2 h
      exact h1.trans (swapIdx_perm arr (i2 + 1) _ arrMid hsw)

/-- The `shuffle` method permutes its input whenever it succeeds. -/
theorem shuffle_perm (r : SeededRandom) (arr arr2 : List α) (r2 : SeededRandom)
    (h : r.shuffle arr = (.ok arr2, r2)) : List.Perm arr2 arr :=
  shuffleFrom_perm (arr.length - 1) r arr arr2 r2 h

/-- The shuffle loop can only fail with `badIndex`. -/
theorem shuffleFrom_error : ∀ (i : ℕ) (r : SeededRandom) (arr : List α)
    (e : GenError) (r2 : SeededRandom), shuffleFrom r arr i = (.error e, r2) →
    e = GenError.badIndex := by
  intro i
  induction i with
  | zero =>
    intro r arr e r2 h
    simp [shuffleFrom] at h
  | succ i2 ih =>
    intro r arr e r2 h
    unfold shuffleFrom at h
    simp only [] at h
    cases hsw : swapIdx arr (i2 + 1) (r.nextInt 0 ((i2 : ℤ) + 2)).1 with
    | none =>
      rw [hsw] at h
      simp at h
      exact h.1.symm
    | some arrMid =>
      rw [hsw] at h
      exact ih _ arrMid e r2 h

/-- The four direction records. -/
theorem dir_cases (d : Dir) (hd : d ∈ DIRECTIONS) :
    d = ⟨0, -1⟩ ∨ d = ⟨1, 0⟩ ∨ d = ⟨0, 1⟩ ∨ d = ⟨-1, 0⟩ := by
  simpa [DIRECTIONS] using hd

/-! ## C1, layer B: what one carve call can change -/

theorem setCell_same (g : Grid) (y x : ℤ) (v : ℕ) : setCell g y x v y x = v := by
  simp [setCell]

theorem setCell_other (g : Grid) (y x : ℤ) (v : ℕ) (b a : ℤ) (h : ¬(b = y ∧ a = x)) :
    setCell g y x v b a = g b a := by
  simp [setCell, h]

theorem BW_setPath (g : Grid) (y x : ℤ) (hBW : BW g) : BW (setCell g y x PATH) := by
  intro b a
  by_cases hba : b = y ∧ a = x
  · right
    obtain ⟨hb, ha⟩ := hba
    subst hb
    subst ha
    exact setCell_same g b a PATH
  · rw [setCell_other g y x PATH b a hba]
    exact hBW b a

theorem changes_refl (cols rows : ℕ) (g : Grid) : Changes cols rows g g :=
  fun _ _ => Or.inl rfl

theorem changes_trans {cols rows : ℕ} {g g2 g3 : Grid} (h1 : Changes cols rows g g2)
    (h2 : Changes cols rows g2 g3) : Changes cols rows g g3 := by
  intro y x
  rcases h2 y x with hA | ⟨hi, hw, hp⟩
  · rw [hA]
    exact h1 y x
  · rcases h1 y x with hB | ⟨hi2, hw2, hp2⟩
    · rw [hB] at hw
      exact Or.inr ⟨hi, hw, hp⟩
    · rw [hp2] at hw
      exact absurd hw (by decide)

theorem changes_setPath {cols rows : ℕ} {g : Grid} {x y : ℤ}
    (hxy : interior cols rows x y) (hBW : BW g) :
    Changes cols rows g (setCell g y x PATH) := by
  intro b a
  by_cases hba : b = y ∧ a = x
  · obtain ⟨hb, ha⟩ := hba
    subst hb
    subst ha
    rcases hBW b a with hw | hp
    · exact Or.inr ⟨hxy, hw, setCell_same g b a PATH⟩
    · rw [setCell_same g b a PATH, hp]
      exact Or.inl rfl
  · rw [setCell_other g y x PATH b a hba]
    exact Or.inl rfl

theorem path_persists {cols rows : ℕ} {g g2 : Grid} (h : Changes cols rows g g2)
    {y x : ℤ} (hp : g y x = PATH) : g2 y x = PATH := by
  rcases h y x with hA | ⟨_, hw, hp2⟩
  · rw [hA, hp]
  · exact hp2

theorem nonwall_eq {cols rows : ℕ} {g g2 : Grid} (h : Changes cols rows g g2)
    {y x : ℤ} (hnw : g y x ≠ WALL) : g2 y x = g y x := by
  rcases h y x with hA | ⟨_, hw, _⟩
  · exact hA
  · exact absurd hw hnw

theorem BW_of_changes {cols rows : ℕ} {g g2 : Grid} (hBW : BW g)
    (h : Changes cols rows g g2) : BW g2 := by
  intro y x
  rcases h y x with hA | ⟨_, _, hp⟩
  · rw [hA]
    exact hBW y x
  · right
    exact hp

theorem interior_mid {cols rows : ℕ} (d : Dir) (hd : d ∈ DIRECTIONS) {x y : ℤ}
    (hxy : interior cols rows x y) (hnb : interior cols rows (x + d.dx * 2) (y + d.dy * 2)) :
    interior cols rows (x + d.dx) (y + d.dy) := by
  obtain ⟨h1, h2, h3, h4⟩ := hxy
  obtain ⟨h5, h6, h7, h8⟩ := hnb
  rcases dir_cases d hd with h | h | h | h <;>
    subst h <;> exact ⟨by omega, by omega, by omega, by omega⟩

theorem mid_ne_target (d : Dir) (hd : d ∈ DIRECTIONS) (x y : ℤ) :
    ¬(y + d.dy * 2 = y + d.dy ∧ x + d.dx * 2 = x + d.dx) := by
  rcases dir_cases d hd with h | h | h | h <;> subst h <;> simp

/-- Everything a run of the carve loop does to the grid turns interior Wall
cells into Path cells. -/
theorem carveDirs_changes (recur : Grid → SeededRandom → ℤ → ℤ → Except GenError (Grid × SeededRandom))
    (cols rows : ℕ)
    (hrec : ∀ g r x y g2 r2, interior cols rows x y → BW g →
      recur g r x y = .ok (g2, r2) → Changes cols rows g g2) :
    ∀ (ds : List Dir) (g : Grid) (r : SeededRandom) (x y : ℤ) (g2 : Grid) (r2 : SeededRandom),
      (∀ d ∈ ds, d ∈ DIRECTIONS) → interior cols rows x y → BW g →
      carveDirs recur cols rows g r x y ds = .ok (g2, r2) → Changes cols rows g g2 := by
  intro ds
  induction ds with
  | nil =>
    intro g r x y g2 r2 _ _ _ h
    simp only [carveDirs, Except.ok.injEq, Prod.mk.injEq] at h
    rw [← h.1]
    exact changes_refl cols rows g
  | cons d ds ih =>
    intro g r x y g2 r2 hds hxy hBW h
    unfold carveDirs at h
    simp only [] at h
    by_cases hC : 0 < x + d.dx * 2 ∧ x + d.dx * 2 < (cols : ℤ) - 1 ∧ 0 < y + d.dy * 2 ∧
        y + d.dy * 2 < (rows : ℤ) - 1 ∧ g (y + d.dy * 2) (x + d.dx * 2) = WALL
    · rw [if_pos hC] at h
      cases hrc : recur (setCell g (y + d.dy) (x + d.dx) PATH) r (x + d.dx * 2) (y + d.dy * 2) with
      | error e =>
        rw [hrc] at h
        simp at h
      | ok pr =>
        obtain ⟨g3, r3⟩ := pr
        rw [hrc] at h
        have hd0 : d ∈ DIRECTIONS := hds d (by simp)
        have hint : interior cols rows (x + d.dx * 2) (y + d.dy * 2) :=
          ⟨hC.1, hC.2.1, hC.2.2.1, hC.2.2.2.1⟩
        have hmid : interior cols rows (x + d.dx) (y + d.dy) := interior_mid d hd0 hxy hint
        have hch1 : Changes cols rows g (setCell g (y + d.dy) (x + d.dx) PATH) :=
          changes_setPath hmid hBW
        have hBW1 : BW (setCell g (y + d.dy) (x + d.dx) PATH) := BW_setPath g _ _ hBW
        have hch2 := hrec _ _ _ _ _ _ hint hBW1 hrc
        have hBW3 : BW g3 := BW_of_changes hBW1 hch2
        have hch3 := ih g3 r3 x y g2 r2 (fun d2 hd2 => hds d2 (by simp [hd2])) hxy hBW3 h
        exact changes_trans (changes_trans hch1 hch2) hch3
    · rw [if_neg hC] at h
      exact ih g r x y g2 r2 (fun d2 hd2 => hds d2 (by simp [hd2])) hxy hBW h

/-- A successful carve call only turns interior Wall cells into Path cells. -/
theorem carve_changes (cols rows : ℕ) :
    ∀ (fuel : ℕ) (g : Grid) (r : SeededRandom) (x y : ℤ) (g2 : Grid) (r2 : SeededRandom),
      interior cols rows x y → BW g → carve cols rows fuel g r x y = .ok (g2, r2) →
      Changes cols rows g g2 := by
  intro fuel
  induction fuel with
  | zero =>
    intro g r x y g2 r2 _ _ h
    simp [carve] at h
  | succ fuel ih =>
    intro g r x y g2 r2 hxy hBW h
    unfold carve at h
    simp only [] at h
    cases hsh : SeededRandom.shuffle r DIRECTIONS with
    | mk sres r1 =>
      rw [hsh] at h
      cases sres with
      | error e =>
        simp at h
      | ok dirs =>
        have hperm := shuffle_perm r DIRECTIONS dirs r1 hsh
        have hds : ∀ d ∈ dirs, d ∈ DIRECTIONS := fun d hd => hperm.mem_iff.mp hd
        have hch0 : Changes cols rows g (setCell g y x PATH) := changes_setPath hxy hBW
        exact changes_trans hch0
          (carveDirs_changes _ cols rows ih dirs _ r1 x y g2 r2 hds hxy (BW_setPath g y x hBW) h)

/-- A successful carve call leaves its own cell Path. -/
theorem carve_ok_path (cols rows : ℕ) (fuel : ℕ) (g : Grid) (r : SeededRandom) (x y : ℤ)
    (g2 : Grid) (r2 : SeededRandom) (hxy : interior cols rows x y) (hBW : BW g)
    (h : carve cols rows fuel g r x y = .ok (g2, r2)) : g2 y x = PATH := by
  cases fuel with
  | zero =>
    simp [carve] at h
  | succ fuel =>
    unfold carve at h
    simp only [] at h
    cases hsh : SeededRandom.shuffle r DIRECTIONS with
    | mk sres r1 =>
      rw [hsh] at h
      cases sres with
      | error e =>
        simp at h
      | ok dirs =>
        have hperm := shuffle_perm r DIRECTIONS dirs r1 hsh
        have hds : ∀ d ∈ dirs, d ∈ DIRECTIONS := fun d hd => hperm.mem_iff.mp hd
        have hch := carveDirs_changes _ cols rows
          (fun g r x y g2 r2 hi hb hh => carve_changes cols rows fuel g r x y g2 r2 hi hb hh)
          dirs _ r1 x y g2 r2 hds hxy (BW_setPath g y x hBW) h
        exact path_persists hch (setCell_same g y x PATH)

/-! ## C1, layer C: the fuel supplied by generateMaze is sufficient -/

theorem wallCountI_le_of_changes {cols rows : ℕ} {g g2 : Grid} (h : Changes cols rows g g2) :
    wallCountI cols rows g2 ≤ wallCountI cols rows g := by
  apply Finset.card_le_card
  intro p hp
  rw [Finset.mem_filter] at hp ⊢
  refine ⟨hp.1, ?_⟩
  rcases h p.2 p.1 with hA | ⟨_, hw, hpth⟩
  · rw [← hA]
    exact hp.2
  · rw [hpth] at hp
    exact absurd hp.2 (by decide)

theorem wallCountI_setCell_le (cols rows : ℕ) (g : Grid) (y x : ℤ) :
    wallCountI cols rows (setCell g y x PATH) ≤ wallCountI cols rows g := by
  apply Finset.card_le_card
  intro p hp
  rw [Finset.mem_filter] at hp ⊢
  refine ⟨hp.1, ?_⟩
  by_cases hba : p.2 = y ∧ p.1 = x
  · rw [setCell, if_pos hba] at hp
    exact absurd hp.2 (by decide)
  · rw [setCell_other g y x PATH p.2 p.1 hba] at hp
    exact hp.2

theorem mem_box_of_interior {cols rows : ℕ} {x y : ℤ} (h : interior cols rows x y) :
    (x, y) ∈ Finset.Icc (0 : ℤ) ((cols : ℤ) - 1) ×ˢ Finset.Icc (0 : ℤ) ((rows : ℤ) - 1) := by
  obtain ⟨h1, h2, h3, h4⟩ := h
  rw [Finset.mem_product, Finset.mem_Icc, Finset.mem_Icc]
  constructor
  · exact ⟨by omega, by omega⟩
  · exact ⟨by omega, by omega⟩

theorem wallCountI_pos {cols rows : ℕ} {g : Grid} {x y : ℤ} (hxy : interior cols rows x y)
    (hw : g y x = WALL) : 1 ≤ wallCountI cols rows g := by
  unfold wallCountI
  refine Finset.card_pos.mpr ⟨(x, y), ?_⟩
  rw [Finset.mem_filter]
  exact ⟨mem_box_of_interior hxy, hw⟩

theorem wallCountI_setCell_lt {cols rows : ℕ} {g : Grid} {x y : ℤ}
    (hxy : interior cols rows x y) (hw : g y x = WALL) :
    wallCountI cols rows (setCell g y x PATH) < wallCountI cols rows g := by
  apply Finset.card_lt_card
  rw [Finset.ssubset_iff_of_subset]
  · refine ⟨(x, y), ?_, ?_⟩
    · rw [Finset.mem_filter]
      exact ⟨mem_box_of_interior hxy, hw⟩
    · rw [Finset.mem_filter]
      intro hcon
      have := hcon.2
      rw [setCell_same] at this
      exact absurd this (by decide)
  · intro p hp
    rw [Finset.mem_filter] at hp ⊢
    refine ⟨hp.1, ?_⟩
    by_cases hba : p.2 = y ∧ p.1 = x
    · rw [setCell, if_pos hba] at hp
      exact absurd hp.2 (by decide)
    · rw [setCell_other g y x PATH p.2 p.1 hba] at hp
      exact hp.2

theorem wallCountI_le_box (cols rows : ℕ) (g : Grid) :
    wallCountI cols rows g ≤ cols * rows := by
  calc wallCountI cols rows g
      ≤ (Finset.Icc (0 : ℤ) ((cols : ℤ) - 1) ×ˢ Finset.Icc (0 : ℤ) ((rows : ℤ) - 1)).card :=
        Finset.card_filter_le _ _
    _ = cols * rows := by
        rw [Finset.card_product, Int.card_Icc, Int.card_Icc]
        simp

/-- The carve loop never runs out of fuel while more fuel than interior wall
cells remains. -/
theorem carveDirs_noFuel (recur : Grid → SeededRandom → ℤ → ℤ → Except GenError (Grid × SeededRandom))
    (cols rows B : ℕ)
    (hrecNF : ∀ g r x y, interior cols rows x y → BW g → g y x = WALL →
      wallCountI cols rows g ≤ B → recur g r x y ≠ .error .outOfFuel)
    (hrecCH : ∀ g r x y g2 r2, interior cols rows x y → BW g →
      recur g r x y = .ok (g2, r2) → Changes cols rows g g2) :
    ∀ (ds : List Dir) (g : Grid) (r : SeededRandom) (x y : ℤ),
      (∀ d ∈ ds, d ∈ DIRECTIONS) → interior cols rows x y → BW g →
      wallCountI cols rows g ≤ B →
      carveDirs recur cols rows g r x y ds ≠ .error .outOfFuel := by
  intro ds
  induction ds with
  | nil =>
    intro g r x y _ _ _ _ h
    simp [carveDirs] at h
  | cons d ds ih =>
    intro g r x y hds hxy hBW hcnt h
    unfold carveDirs at h
    simp only [] at h
    by_cases hC : 0 < x + d.dx * 2 ∧ x + d.dx * 2 < (cols : ℤ) - 1 ∧ 0 < y + d.dy * 2 ∧
        y + d.dy * 2 < (rows : ℤ) - 1 ∧ g (y + d.dy * 2) (x + d.dx * 2) = WALL
    · rw [if_pos hC] at h
      have hd0 : d ∈ DIRECTIONS := hds d (by simp)
      have hint : interior cols rows (x + d.dx * 2) (y + d.dy * 2) :=
        ⟨hC.1, hC.2.1, hC.2.2.1, hC.2.2.2.1⟩
      have hBW1 : BW (setCell g (y + d.dy) (x + d.dx) PATH) := BW_setPath g _ _ hBW
      have hwall1 : setCell g (y + d.dy) (x + d.dx) PATH (y + d.dy * 2) (x + d.dx * 2) = WALL := by
        rw [setCell_other g _ _ PATH _ _ (mid_ne_target d hd0 x y)]
        exact hC.2.2.2.2
      have hcnt1 : wallCountI cols rows (setCell g (y + d.dy) (x + d.dx) PATH) ≤ B :=
        le_trans (wallCountI_setCell_le cols rows g _ _) hcnt
      cases hrc : recur (setCell g (y + d.dy) (x + d.dx) PATH) r (x + d.dx * 2) (y + d.dy * 2) with
      | error e =>
        rw [hrc] at h
        simp only [Except.error.injEq] at h
        rw [h] at hrc
        exact hrecNF _ r _ _ hint hBW1 hwall1 hcnt1 hrc
      | ok pr =>
        obtain ⟨g3, r3⟩ := pr
        rw [hrc] at h
        have hch2 := hrecCH _ _ _ _ _ _ hint hBW1 hrc
        have hBW3 : BW g3 := BW_of_changes hBW1 hch2
        have hcnt3 : wallCountI cols rows g3 ≤ B :=
          le_trans (wallCountI_le_of_changes hch2) hcnt1
        exact ih g3 r3 x y (fun d2 hd2 => hds d2 (by simp [hd2])) hxy hBW3 hcnt3 h
    · rw [if_neg hC] at h
      exact ih g r x y (fun d2 hd2 => hds d2 (by simp [hd2])) hxy hBW hcnt h

/-- A carve call with more fuel than remaining interior wall cells never
reports `outOfFuel`. -/
theorem carve_noFuel (cols rows : ℕ) :
    ∀ (fuel : ℕ) (g : Grid) (r : SeededRandom) (x y : ℤ),
      interior cols rows x y → BW g → g y x = WALL → wallCountI cols rows g < fuel →
      carve cols rows fuel g r x y ≠ .error .outOfFuel := by
  intro fuel
  induction fuel with
  | zero =>
    intro g r x y _ _ _ hcnt
    omega
  | succ fuel ih =>
    intro g r x y hxy hBW hw hcnt h
    unfold carve at h
    simp only [] at h
    cases hsh : SeededRandom.shuffle r DIRECTIONS with
    | mk sres r1 =>
      rw [hsh] at h
      cases sres with
      | error e =>
        simp only [Except.error.injEq] at h
        rw [h] at hsh
        have := shuffleFrom_error (DIRECTIONS.length - 1) r DIRECTIONS GenError.outOfFuel r1 hsh
        exact absurd this (by decide)
      | ok dirs =>
        have hperm := shuffle_perm r DIRECTIONS dirs r1 hsh
        have hds : ∀ d ∈ dirs, d ∈ DIRECTIONS := fun d hd => hperm.mem_iff.mp hd
        have hlt := wallCountI_setCell_lt hxy hw
        refine carveDirs_noFuel _ cols rows (fuel - 1)
          (fun g r x y hi hb hwall hc => ih g r x y hi hb hwall ?_)
          (fun g r x y g2 r2 hi hb hh => carve_changes cols rows fuel g r x y g2 r2 hi hb hh)
          dirs _ r1 x y hds hxy (BW_setPath g y x hBW) ?_ h
        · have h1 := wallCountI_pos hi hwall
          omega
        · omega

/-! ## C1, layer D: after a successful carve, every newly carved odd cell
has all of its interior two-step neighbours carved (DFS completeness) -/

theorem odd_add_two_mul (t x : ℤ) (hx : Odd x) : Odd (x + t * 2) := by
  rcases hx with ⟨k, hk⟩
  exact ⟨k + t, by omega⟩

theorem mid_not_oddodd (d : Dir) (hd : d ∈ DIRECTIONS) (x y a b : ℤ)
    (hx : Odd x) (hy : Odd y) (ha : Odd a) (hb : Odd b) :
    ¬(b = y + d.dy ∧ a = x + d.dx) := by
  rw [Int.odd_iff] at hx hy ha hb
  intro hcon
  obtain ⟨h1, h2⟩ := hcon
  rcases dir_cases d hd with h | h | h | h <;> subst h <;> simp at h1 h2 <;> omega

/-- Closure through the direction loop: every direction of the loop whose
target is interior ends up carved, and every odd cell newly carved during
the loop has all its interior two-step neighbours carved. -/
theorem carveDirs_closure (recur : Grid → SeededRandom → ℤ → ℤ → Except GenError (Grid × SeededRandom))
    (cols rows : ℕ)
    (hrecCH : ∀ g r x y g2 r2, interior cols rows x y → BW g →
      recur g r x y = .ok (g2, r2) → Changes cols rows g g2)
    (hrecPATH : ∀ g r x y g2 r2, interior cols rows x y → BW g →
      recur g r x y = .ok (g2, r2) → g2 y x = PATH)
    (hrecCL : ∀ g r x y g2 r2, interior cols rows x y → BW g → Odd x → Odd y →
      g y x = WALL → recur g r x y = .ok (g2, r2) →
      ∀ a b : ℤ, Odd a → Odd b → g b a = WALL → g2 b a = PATH →
        ∀ d2 ∈ DIRECTIONS, interior cols rows (a + d2.dx * 2) (b + d2.dy * 2) →
          g2 (b + d2.dy * 2) (a + d2.dx * 2) = PATH) :
    ∀ (ds : List Dir) (g : Grid) (r : SeededRandom) (x y : ℤ) (g2 : Grid) (r2 : SeededRandom),
      (∀ d ∈ ds, d ∈ DIRECTIONS) → interior cols rows x y → BW g → Odd x → Odd y →
      carveDirs recur cols rows g r x y ds = .ok (g2, r2) →
      ((∀ d ∈ ds, interior cols rows (x + d.dx * 2) (y + d.dy * 2) →
          g2 (y + d.dy * 2) (x + d.dx * 2) = PATH) ∧
       (∀ a b : ℤ, Odd a → Odd b → g b a = WALL → g2 b a = PATH →
          ∀ d2 ∈ DIRECTIONS, interior cols rows (a + d2.dx * 2) (b + d2.dy * 2) →
            g2 (b + d2.dy * 2) (a + d2.dx * 2) = PATH)) := by
  intro ds
  induction ds with
  | nil =>
    intro g r x y g2 r2 _ _ _ _ _ h
    simp only [carveDirs, Except.ok.injEq, Prod.mk.injEq] at h
    constructor
    · intro d hd
      simp at hd
    · intro a b _ _ hw hp
      rw [← h.1] at hp
      rw [hw] at hp
      exact absurd hp (by decide)
  | cons d ds ih =>
    intro g r x y g2 r2 hds hxy hBW hox hoy h
    unfold carveDirs at h
    simp only [] at h
    have hd0 : d ∈ DIRECTIONS := hds d (by simp)
    have hds2 : ∀ d2 ∈ ds, d2 ∈ DIRECTIONS := fun d2 hd2 => hds d2 (by simp [hd2])
    by_cases hC : 0 < x + d.dx * 2 ∧ x + d.dx * 2 < (cols : ℤ) - 1 ∧ 0 < y + d.dy * 2 ∧
        y + d.dy * 2 < (rows : ℤ) - 1 ∧ g (y + d.dy * 2) (x + d.dx * 2) = WALL
    · rw [if_pos hC] at h
      have hint : interior cols rows (x + d.dx * 2) (y + d.dy * 2) :=
        ⟨hC.1, hC.2.1, hC.2.2.1, hC.2.2.2.1⟩
      have hmid : interior cols rows (x + d.dx) (y + d.dy) := interior_mid d hd0 hxy hint
      have hBW1 : BW (setCell g (y + d.dy) (x + d.dx) PATH) := BW_setPath g _ _ hBW
      have hwall1 : setCell g (y + d.dy) (x + d.dx) PATH (y + d.dy * 2) (x + d.dx * 2) = WALL := by
        rw [setCell_other g _ _ PATH _ _ (mid_ne_target d hd0 x y)]
        exact hC.2.2.2.2
      cases hrc : recur (setCell g (y + d.dy) (x + d.dx) PATH) r (x + d.dx * 2) (y + d.dy * 2) with
      | error e =>
        rw [hrc] at h
        simp at h
      | ok pr =>
        obtain ⟨g3, r3⟩ := pr
        rw [hrc] at h
        have hch2 := hrecCH _ _ _ _ _ _ hint hBW1 hrc
        have hBW3 : BW g3 := BW_of_changes hBW1 hch2
        have hch3 := carveDirs_changes recur cols rows hrecCH ds g3 r3 x y g2 r2 hds2 hxy hBW3 h
        obtain ⟨IH1, IH2⟩ := ih g3 r3 x y g2 r2 hds2 hxy hBW3 hox hoy h
        constructor
        · intro d2 hd2 hint2
          rcases List.mem_cons.mp hd2 with hdd | hdd
          · subst hdd
            have hp3 : g3 (y + d2.dy * 2) (x + d2.dx * 2) = PATH :=
              hrecPATH _ _ _ _ _ _ hint hBW1 hrc
            exact path_persists hch3 hp3
          · exact IH1 d2 hdd hint2
        · intro a b hoa hob hwab hpab
          rcases hBW3 b a with hw3 | hp3
          · exact IH2 a b hoa hob hw3 hpab
          · have hwmid : setCell g (y + d.dy) (x + d.dx) PATH b a = WALL := by
              rw [setCell_other g _ _ PATH b a (mid_not_oddodd d hd0 x y a b hox hoy hoa hob)]
              exact hwab
            intro d2 hd2 hint2
            have hcl := hrecCL _ _ _ _ _ _ hint hBW1 (odd_add_two_mul d.dx x hox) (odd_add_two_mul d.dy y hoy)
              hwall1 hrc a b hoa hob hwmid hp3 d2 hd2 hint2
            exact path_persists hch3 hcl
    · rw [if_neg hC] at h
      have hch3 := carveDirs_changes recur cols rows hrecCH ds g r x y g2 r2 hds2 hxy hBW h
      obtain ⟨IH1, IH2⟩ := ih g r x y g2 r2 hds2 hxy hBW hox hoy h
      constructor
      · intro d2 hd2 hint2
        rcases List.mem_cons.mp hd2 with hdd | hdd
        · subst hdd
          have hnw : g (y + d2.dy * 2) (x + d2.dx * 2) ≠ WALL := by
            intro hcon
            exact hC ⟨hint2.1, hint2.2.1, hint2.2.2.1, hint2.2.2.2, hcon⟩
          rcases hBW (y + d2.dy * 2) (x + d2.dx * 2) with hw | hp
          · exact absurd hw hnw
          · exact path_persists hch3 hp
        · exact IH1 d2 hdd hint2
      · exact IH2

/-- DFS completeness: after a successful carve from an odd interior Wall
cell, every odd cell carved from Wall to Path has all of its interior
two-step neighbours carved to Path. -/
theorem carve_closure (cols rows : ℕ) :
    ∀ (fuel : ℕ) (g : Grid) (r : SeededRandom) (x y : ℤ) (g2 : Grid) (r2 : SeededRandom),
      interior cols rows x y → BW g → Odd x → Odd y → g y x = WALL →
      carve cols rows fuel g r x y = .ok (g2, r2) →
      ∀ a b : ℤ, Odd a → Odd b → g b a = WALL → g2 b a = PATH →
        ∀ d ∈ DIRECTIONS, interior cols rows (a + d.dx * 2) (b + d.dy * 2) →
          g2 (b + d.dy * 2) (a + d.dx * 2) = PATH := by
  intro fuel
  induction fuel with
  | zero =>
    intro g r x y g2 r2 _ _ _ _ _ h
    simp [carve] at h
  | succ fuel ih =>
    intro g r x y g2 r2 hxy hBW hox hoy hw h
    unfold carve at h
    simp only [] at h
    cases hsh : SeededRandom.shuffle r DIRECTIONS with
    | mk sres r1 =>
      rw [hsh] at h
      cases sres with
      | error e =>
        simp at h
      | ok dirs =>
        have hperm := shuffle_perm r DIRECTIONS dirs r1 hsh
        have hds : ∀ d ∈ dirs, d ∈ DIRECTIONS := fun d hd => hperm.mem_iff.mp hd
        have hdsrev : ∀ d ∈ DIRECTIONS, d ∈ dirs := fun d hd => hperm.mem_iff.mpr hd
        obtain ⟨CC1, CC2⟩ := carveDirs_closure (carve cols rows fuel) cols rows
          (fun g r x y g2 r2 hi hb hh => carve_changes cols rows fuel g r x y g2 r2 hi hb hh)
          (fun g r x y g2 r2 hi hb hh => carve_ok_path cols rows fuel g r x y g2 r2 hi hb hh)
          (fun g r x y g2 r2 hi hb ho1 ho2 hwl hh => ih g r x y g2 r2 hi hb ho1 ho2 hwl hh)
          dirs _ r1 x y g2 r2 hds hxy (BW_setPath g y x hBW) hox hoy h
        intro a b hoa hob hwab hpab
        by_cases hax : b = y ∧ a = x
        · obtain ⟨hb2, ha2⟩ := hax
          subst hb2
          subst ha2
          intro d2 hd2 hint2
          exact CC1 d2 (hdsrev d2 hd2) hint2
        · have hwmid : setCell g y x PATH b a = WALL := by
            rw [setCell_other g y x PATH b a hax]
            exact hwab
          exact CC2 a b hoa hob hwmid hpab

/-! ## C1, layer E: everything carved is connected to the carve anchor -/

theorem adjacent_symm {p q : ℤ × ℤ} (h : adjacent p q) : adjacent q p := by
  unfold adjacent at h ⊢
  omega

theorem adj_self_mid (d : Dir) (hd : d ∈ DIRECTIONS) (x y : ℤ) :
    adjacent (x, y) (x + d.dx, y + d.dy) := by
  rcases dir_cases d hd with h | h | h | h <;> subst h <;> unfold adjacent <;> simp

theorem adj_mid_target (d : Dir) (hd : d ∈ DIRECTIONS) (x y : ℤ) :
    adjacent (x + d.dx, y + d.dy) (x + d.dx * 2, y + d.dy * 2) := by
  rcases dir_cases d hd with h | h | h | h <;> subst h <;> unfold adjacent <;> simp <;> omega

theorem self_ne_mid (d : Dir) (hd : d ∈ DIRECTIONS) (x y : ℤ) :
    ¬(y = y + d.dy ∧ x = x + d.dx) := by
  rcases dir_cases d hd with h | h | h | h <;> subst h <;> simp

theorem setPath_keeps {g : Grid} {b a : ℤ} (y2 x2 : ℤ) (hp : g b a = PATH) :
    setCell g y2 x2 PATH b a = PATH := by
  by_cases hba : b = y2 ∧ a = x2
  · obtain ⟨h1, h2⟩ := hba
    subst h1
    subst h2
    exact setCell_same g b a PATH
  · rw [setCell_other g y2 x2 PATH b a hba]
    exact hp

theorem reachP_mono {g g2 : Grid} (hsub : ∀ b a : ℤ, g b a = PATH → g2 b a = PATH)
    {p q : ℤ × ℤ} (h : ReachP g p q) : ReachP g2 p q :=
  Relation.ReflTransGen.mono (fun p1 _ hstep => ⟨hstep.1, hsub p1.2 p1.1 hstep.2⟩) h

/-- Connectivity through the direction loop: if at entry every Path cell
reaches the current cell, the same holds at exit. -/
theorem carveDirs_conn (recur : Grid → SeededRandom → ℤ → ℤ → Except GenError (Grid × SeededRandom))
    (cols rows : ℕ)
    (hrecCH : ∀ g r x y g2 r2, interior cols rows x y → BW g →
      recur g r x y = .ok (g2, r2) → Changes cols rows g g2)
    (hrecPATH : ∀ g r x y g2 r2, interior cols rows x y → BW g →
      recur g r x y = .ok (g2, r2) → g2 y x = PATH)
    (hrecCONN : ∀ g r x y g2 r2, interior cols rows x y → BW g →
      (∀ a b : ℤ, g b a = PATH → ReachP g (a, b) (x, y)) →
      recur g r x y = .ok (g2, r2) →
      ∀ a b : ℤ, g2 b a = PATH → ReachP g2 (a, b) (x, y)) :
    ∀ (ds : List Dir) (g : Grid) (r : SeededRandom) (x y : ℤ) (g2 : Grid) (r2 : SeededRandom),
      (∀ d ∈ ds, d ∈ DIRECTIONS) → interior cols rows x y → BW g → g y x = PATH →
      (∀ a b : ℤ, g b a = PATH → ReachP g (a, b) (x, y)) →
      carveDirs recur cols rows g r x y ds = .ok (g2, r2) →
      ∀ a b : ℤ, g2 b a = PATH → ReachP g2 (a, b) (x, y) := by
  intro ds
  induction ds with
  | nil =>
    intro g r x y g2 r2 _ _ _ _ hinv h
    simp only [carveDirs, Except.ok.injEq, Prod.mk.injEq] at h
    rw [← h.1]
    exact hinv
  | cons d ds ih =>
    intro g r x y g2 r2 hds hxy hBW hpxy hinv h
    unfold carveDirs at h
    simp only [] at h
    have hd0 : d ∈ DIRECTIONS := hds d (by simp)
    have hds2 : ∀ d2 ∈ ds, d2 ∈ DIRECTIONS := fun d2 hd2 => hds d2 (by simp [hd2])
    by_cases hC : 0 < x + d.dx * 2 ∧ x + d.dx * 2 < (cols : ℤ) - 1 ∧ 0 < y + d.dy * 2 ∧
        y + d.dy * 2 < (rows : ℤ) - 1 ∧ g (y + d.dy * 2) (x + d.dx * 2) = WALL
    · rw [if_pos hC] at h
      have hint : interior cols rows (x + d.dx * 2) (y + d.dy * 2) :=
        ⟨hC.1, hC.2.1, hC.2.2.1, hC.2.2.2.1⟩
      have hBW1 : BW (setCell g (y + d.dy) (x + d.dx) PATH) := BW_setPath g _ _ hBW
      have hPmid : setCell g (y + d.dy) (x + d.dx) PATH (y + d.dy) (x + d.dx) = PATH :=
        setCell_same g _ _ PATH
      have hPxy1 : setCell g (y + d.dy) (x + d.dx) PATH y x = PATH := by
        rw [setCell_other g _ _ PATH y x (self_ne_mid d hd0 x y)]
        exact hpxy
      have hinvMid : ∀ a b : ℤ, setCell g (y + d.dy) (x + d.dx) PATH b a = PATH →
          ReachP (setCell g (y + d.dy) (x + d.dx) PATH) (a, b) (x, y) := by
        intro a b hp
        by_cases hba : b = y + d.dy ∧ a = x + d.dx
        · obtain ⟨h1, h2⟩ := hba
          subst h1
          subst h2
          exact Relation.ReflTransGen.single
            ⟨adjacent_symm (adj_self_mid d hd0 x y), hPmid⟩
        · rw [setCell_other g _ _ PATH b a hba] at hp
          exact reachP_mono (fun b2 a2 hp2 => setPath_keeps _ _ hp2) (hinv a b hp)
      have hinvTarget : ∀ a b : ℤ, setCell g (y + d.dy) (x + d.dx) PATH b a = PATH →
          ReachP (setCell g (y + d.dy) (x + d.dx) PATH) (a, b)
            (x + d.dx * 2, y + d.dy * 2) := by
        intro a b hp
        refine Relation.ReflTransGen.tail (Relation.ReflTransGen.tail
          (hinvMid a b hp) ⟨adj_self_mid d hd0 x y, hPxy1⟩) ?_
        exact ⟨adj_mid_target d hd0 x y, hPmid⟩
      cases hrc : recur (setCell g (y + d.dy) (x + d.dx) PATH) r (x + d.dx * 2) (y + d.dy * 2) with
      | error e =>
        rw [hrc] at h
        simp at h
      | ok pr =>
        obtain ⟨g3, r3⟩ := pr
        rw [hrc] at h
        have hch2 := hrecCH _ _ _ _ _ _ hint hBW1 hrc
        have hBW3 : BW g3 := BW_of_changes hBW1 hch2
        have hPtarget3 : g3 (y + d.dy * 2) (x + d.dx * 2) = PATH :=
          hrecPATH _ _ _ _ _ _ hint hBW1 hrc
        have hPmid3 : g3 (y + d.dy) (x + d.dx) = PATH := path_persists hch2 hPmid
        have hPxy3 : g3 y x = PATH := path_persists hch2 hPxy1
        have hinv3t := hrecCONN _ _ _ _ _ _ hint hBW1 hinvTarget hrc
        have hinv3 : ∀ a b : ℤ, g3 b a = PATH → ReachP g3 (a, b) (x, y) := by
          intro a b hp
          have s1 : ReachP g3 (a, b) (x + d.dx * 2, y + d.dy * 2) := hinv3t a b hp
          have s2 : ReachP g3 (a, b) (x + d.dx, y + d.dy) :=
            Relation.ReflTransGen.tail s1 ⟨adjacent_symm (adj_mid_target d hd0 x y), hPtarget3⟩
          exact Relation.ReflTransGen.tail s2 ⟨adjacent_symm (adj_self_mid d hd0 x y), hPmid3⟩
        exact ih g3 r3 x y g2 r2 hds2 hxy hBW3 hPxy3 hinv3 h
    · rw [if_neg hC] at h
      exact ih g r x y g2 r2 hds2 hxy hBW hpxy hinv h

/-- Everything Path after a successful carve call reaches the carve cell
along Path cells. -/
theorem carve_conn (cols rows : ℕ) :
    ∀ (fuel : ℕ) (g : Grid) (r : SeededRandom) (x y : ℤ) (g2 : Grid) (r2 : SeededRandom),
      interior cols rows x y → BW g →
      (∀ a b : ℤ, g b a = PATH → ReachP g (a, b) (x, y)) →
      carve cols rows fuel g r x y = .ok (g2, r2) →
      ∀ a b : ℤ, g2 b a = PATH → ReachP g2 (a, b) (x, y) := by
  intro fuel
  induction fuel with
  | zero =>
    intro g r x y g2 r2 _ _ _ h
    simp [carve] at h
  | succ fuel ih =>
    intro g r x y g2 r2 hxy hBW hinv h
    unfold carve at h
    simp only [] at h
    cases hsh : SeededRandom.shuffle r DIRECTIONS with
    | mk sres r1 =>
      rw [hsh] at h
      cases sres with
      | error e =>
        simp at h
      | ok dirs =>
        have hperm := shuffle_perm r DIRECTIONS dirs r1 hsh
        have hds : ∀ d ∈ dirs, d ∈ DIRECTIONS := fun d hd => hperm.mem_iff.mp hd
        have hinv1 : ∀ a b : ℤ, setCell g y x PATH b a = PATH →
            ReachP (setCell g y x PATH) (a, b) (x, y) := by
          intro a b hp
          by_cases hba : b = y ∧ a = x
          · obtain ⟨h1, h2⟩ := hba
            subst h1
            subst h2
            exact Relation.ReflTransGen.refl
          · rw [setCell_other g y x PATH b a hba] at hp
            exact reachP_mono (fun b2 a2 hp2 => setPath_keeps _ _ hp2) (hinv a b hp)
        exact carveDirs_conn _ cols rows
          (fun g r x y g2 r2 hi hb hh => carve_changes cols rows fuel g r x y g2 r2 hi hb hh)
          (fun g r x y g2 r2 hi hb hh => carve_ok_path cols rows fuel g r x y g2 r2 hi hb hh)
          (fun g r x y g2 r2 hi hb hv hh => ih g r x y g2 r2 hi hb hv hh)
          dirs _ r1 x y g2 r2 hds hxy (BW_setPath g y x hBW)
          (setCell_same g y x PATH) hinv1 h

/-! ## C1, layer F: consolidated facts about a successful generation -/

theorem startCol_facts (cols : ℕ) (ho : cols % 2 = 1) (h5 : 5 ≤ cols) :
    startCol cols % 2 = 1 ∧ 0 < startCol cols ∧ startCol cols < cols - 1 := by
  unfold startCol
  split <;> omega

theorem dir_left_mem : (⟨-1, 0⟩ : Dir) ∈ DIRECTIONS := by
  simp [DIRECTIONS]

theorem dir_right_mem : (⟨1, 0⟩ : Dir) ∈ DIRECTIONS := by
  simp [DIRECTIONS]

theorem dir_down_mem : (⟨0, 1⟩ : Dir) ∈ DIRECTIONS := by
  simp [DIRECTIONS]

/-- Everything needed about the grid produced by `_generateMaze`: cells are
Wall or Path, Path cells are interior, the start cell is Path, every odd
interior cell is Path, and every Path cell reaches the start cell along
Path cells. -/
theorem generateMaze_facts (cols rows : ℕ) (hoc : cols % 2 = 1) (hor : rows % 2 = 1)
    (h5c : 5 ≤ cols) (h5r : 5 ≤ rows) (r0 : SeededRandom) (g2 : Grid) (r2 : SeededRandom)
    (hgen : generateMaze cols rows r0 = .ok (g2, r2)) :
    BW g2 ∧
    (∀ a b : ℤ, g2 b a = PATH → interior cols rows a b) ∧
    g2 1 (startCol cols : ℤ) = PATH ∧
    (∀ a b : ℤ, a % 2 = 1 → b % 2 = 1 → interior cols rows a b → g2 b a = PATH) ∧
    (∀ a b : ℤ, g2 b a = PATH → ReachP g2 (a, b) ((startCol cols : ℤ), 1)) := by
  unfold generateMaze at hgen
  have hsx := startCol_facts cols hoc h5c
  have hint : interior cols rows (startCol cols : ℤ) 1 := by
    unfold interior
    refine ⟨by exact_mod_cast hsx.2.1, by omega, by omega, by omega⟩
  have hBW0 : BW (fun _ _ => WALL) := fun _ _ => Or.inl rfl
  have hch : Changes cols rows (fun _ _ => WALL) g2 :=
    carve_changes cols rows (cols * rows + 1) _ r0 _ 1 g2 r2 hint hBW0 hgen
  have hBW2 : BW g2 := BW_of_changes hBW0 hch
  have hintPath : ∀ a b : ℤ, g2 b a = PATH → interior cols rows a b := by
    intro a b hp
    rcases hch b a with hA | ⟨hi, _, _⟩
    · rw [hA] at hp
      simp [WALL, PATH] at hp
    · exact hi
  have hstart : g2 1 (startCol cols : ℤ) = PATH :=
    carve_ok_path cols rows (cols * rows + 1) _ r0 _ 1 g2 r2 hint hBW0 hgen
  have hclos := carve_closure cols rows (cols * rows + 1) _ r0 _ 1 g2 r2 hint hBW0
    (Int.odd_iff.mpr (by exact_mod_cast hsx.1)) (by decide) rfl hgen
  have hoddsx : ((startCol cols : ℕ) : ℤ) % 2 = 1 := by omega
  have hrow1 : ∀ n : ℕ, ∀ a : ℤ, (a - (startCol cols : ℤ)).natAbs = n → a % 2 = 1 →
      0 < a → a < (cols : ℤ) - 1 → g2 1 a = PATH := by
    intro n
    induction n using Nat.strong_induction_on with
    | _ n ih =>
      intro a hn hpar hpos hlt
      by_cases heq : a = (startCol cols : ℤ)
      · rw [heq]
        exact hstart
      · by_cases hside : a < (startCol cols : ℤ)
        · have h2 : a + 2 ≤ (startCol cols : ℤ) := by omega
          have hIH : g2 1 (a + 2) = PATH :=
            ih ((a + 2 - (startCol cols : ℤ)).natAbs) (by omega) (a + 2) rfl
              (by omega) (by omega) (by omega)
          have hres := hclos (a + 2) 1 (Int.odd_iff.mpr (by omega)) (by decide) rfl hIH
            ⟨-1, 0⟩ dir_left_mem
          have hx : a + 2 + (-1 : ℤ) * 2 = a := by ring
          have hy : (1 : ℤ) + (0 : ℤ) * 2 = 1 := by ring
          rw [hx, hy] at hres
          exact hres ⟨hpos, hlt, by omega, by omega⟩
        · have h2 : (startCol cols : ℤ) + 2 ≤ a := by omega
          have hIH : g2 1 (a - 2) = PATH :=
            ih ((a - 2 - (startCol cols : ℤ)).natAbs) (by omega) (a - 2) rfl
              (by omega) (by omega) (by omega)
          have hres := hclos (a - 2) 1 (Int.odd_iff.mpr (by omega)) (by decide) rfl hIH
            ⟨1, 0⟩ dir_right_mem
          have hx : a - 2 + (1 : ℤ) * 2 = a := by ring
          have hy : (1 : ℤ) + (0 : ℤ) * 2 = 1 := by ring
          rw [hx, hy] at hres
          exact hres ⟨hpos, hlt, by omega, by omega⟩
  have hcolspread : ∀ k : ℕ, ∀ a : ℤ, a % 2 = 1 → 0 < a → a < (cols : ℤ) - 1 →
      1 + 2 * (k : ℤ) < (rows : ℤ) - 1 → g2 (1 + 2 * (k : ℤ)) a = PATH := by
    intro k
    induction k with
    | zero =>
      intro a hpar hpos hlt _
      have h0 : (1 : ℤ) + 2 * ((0 : ℕ) : ℤ) = 1 := by norm_num
      rw [h0]
      exact hrow1 ((a - (startCol cols : ℤ)).natAbs) a rfl hpar hpos hlt
    | succ k ih =>
      intro a hpar hpos hlt hrow
      have hprev : g2 (1 + 2 * (k : ℤ)) a = PATH := by
        refine ih a hpar hpos hlt (by push_cast at hrow; omega)
      have hres := hclos a (1 + 2 * (k : ℤ)) (Int.odd_iff.mpr hpar)
        (Int.odd_iff.mpr (by omega)) rfl hprev ⟨0, 1⟩ dir_down_mem
      have hx : a + (0 : ℤ) * 2 = a := by ring
      have hy : 1 + 2 * (k : ℤ) + (1 : ℤ) * 2 = 1 + 2 * ((k : ℤ) + 1) := by ring
      rw [hx, hy] at hres
      have hy2 : (1 : ℤ) + 2 * (((k + 1 : ℕ)) : ℤ) = 1 + 2 * ((k : ℤ) + 1) := by push_cast; ring
      rw [hy2]
      refine hres ⟨hpos, hlt, by omega, ?_⟩
      push_cast at hrow
      omega
  have hallodd : ∀ a b : ℤ, a % 2 = 1 → b % 2 = 1 → interior cols rows a b →
      g2 b a = PATH := by
    intro a b hpa hpb hi
    obtain ⟨h1, h2, h3, h4⟩ := hi
    have hk : ∃ k : ℕ, b = 1 + 2 * (k : ℤ) := by
      refine ⟨((b - 1) / 2).toNat, ?_⟩
      omega
    obtain ⟨k, hkb⟩ := hk
    rw [hkb]
    exact hcolspread k a hpa h1 h2 (by omega)
  have hconn := carve_conn cols rows (cols * rows + 1) _ r0 _ 1 g2 r2 hint hBW0
    (fun a b hp => by simp [WALL, PATH] at hp) hgen
  exact ⟨hBW2, hintPath, hstart, hallodd, hconn⟩

/-! ## C1, layer G: entry and exit placement -/

/-- Invariant of the nearest-Path-column scan: once a candidate has been
recorded, it is a Path cell of the second-to-last row within the scan
range. -/
def scanInv (g : Grid) (cols rows : ℕ) (st : ℤ × Option ℤ) : Prop :=
  st.2 ≠ none → (g ((rows : ℤ) - 2) st.1 = PATH ∧ 1 ≤ st.1 ∧ st.1 ≤ (cols : ℤ) - 2)

theorem scanStep_inv (g : Grid) (cols rows : ℕ) (t : ℤ) (st : ℤ × Option ℤ) (x : ℤ)
    (hx1 : 1 ≤ x) (hx2 : x ≤ (cols : ℤ) - 2) (hst : scanInv g cols rows st) :
    scanInv g cols rows (scanStep g rows t st x) := by
  unfold scanStep
  by_cases hp : g ((rows : ℤ) - 2) x = PATH
  · rw [if_pos hp]
    cases hmd : st.2 with
    | none =>
      intro _
      exact ⟨hp, hx1, hx2⟩
    | some m =>
      simp only []
      by_cases hcmp : |x - t| < m
      · rw [if_pos hcmp]
        intro _
        exact ⟨hp, hx1, hx2⟩
      · rw [if_neg hcmp]
        exact hst
  · rw [if_neg hp]
    exact hst

theorem scanStep_stays_some (g : Grid) (rows : ℕ) (t : ℤ) (st : ℤ × Option ℤ) (x : ℤ)
    (hst : st.2 ≠ none) : (scanStep g rows t st x).2 ≠ none := by
  unfold scanStep
  by_cases hp : g ((rows : ℤ) - 2) x = PATH
  · rw [if_pos hp]
    cases hmd : st.2 with
    | none =>
      exact absurd hmd hst
    | some m =>
      simp only []
      by_cases hcmp : |x - t| < m
      · rw [if_pos hcmp]
        simp
      · rw [if_neg hcmp]
        exact hst
  · rw [if_neg hp]
    exact hst

theorem scanStep_activates (g : Grid) (rows : ℕ) (t : ℤ) (st : ℤ × Option ℤ) (x : ℤ)
    (hp : g ((rows : ℤ) - 2) x = PATH) : (scanStep g rows t st x).2 ≠ none := by
  unfold scanStep
  rw [if_pos hp]
  cases hmd : st.2 with
  | none =>
    simp
  | some m =>
    simp only []
    by_cases hcmp : |x - t| < m
    · rw [if_pos hcmp]
      simp
    · rw [if_neg hcmp]
      rw [hmd]
      simp

theorem scanFold_inv (g : Grid) (cols rows : ℕ) (t : ℤ) :
    ∀ (l : List ℤ) (st : ℤ × Option ℤ), (∀ x ∈ l, 1 ≤ x ∧ x ≤ (cols : ℤ) - 2) →
      scanInv g cols rows st → scanInv g cols rows (l.foldl (scanStep g rows t) st) := by
  intro l
  induction l with
  | nil =>
    intro st _ hst
    exact hst
  | cons x l ih =>
    intro st hl hst
    exact ih _ (fun x2 hx2 => hl x2 (by simp [hx2]))
      (scanStep_inv g cols rows t st x (hl x (by simp)).1 (hl x (by simp)).2 hst)

theorem scanFold_stays_some (g : Grid) (rows : ℕ) (t : ℤ) :
    ∀ (l : List ℤ) (st : ℤ × Option ℤ), st.2 ≠ none →
      (l.foldl (scanStep g rows t) st).2 ≠ none := by
  intro l
  induction l with
  | nil =>
    intro st hst
    exact hst
  | cons x l ih =>
    intro st hst
    exact ih _ (scanStep_stays_some g rows t st x hst)

theorem scanFold_activates (g : Grid) (rows : ℕ) (t : ℤ) :
    ∀ (l : List ℤ) (st : ℤ × Option ℤ) (x0 : ℤ), x0 ∈ l →
      g ((rows : ℤ) - 2) x0 = PATH → (l.foldl (scanStep g rows t) st).2 ≠ none := by
  intro l
  induction l with
  | nil =>
    intro st x0 hx0
    simp at hx0
  | cons x l ih =>
    intro st x0 hx0 hp
    rcases List.mem_cons.mp hx0 with heq | hmem
    · subst heq
      exact scanFold_stays_some g rows t l _ (scanStep_activates g rows t st x0 hp)
    · exact ih _ x0 hmem hp

/-- If the second-to-last row holds a Path cell in the scan range, the scan
returns a Path column of that row in that range. -/
theorem findBestCol_path (g : Grid) (cols rows : ℕ) (t : ℤ) (x0 : ℤ)
    (hx0a : 1 ≤ x0) (hx0b : x0 ≤ (cols : ℤ) - 2) (hx0p : g ((rows : ℤ) - 2) x0 = PATH) :
    g ((rows : ℤ) - 2) (findBestCol g cols rows t) = PATH ∧
    1 ≤ findBestCol g cols rows t ∧ findBestCol g cols rows t ≤ (cols : ℤ) - 2 := by
  have hmem : x0 ∈ (List.range (cols - 2)).map (fun n : ℕ => (n : ℤ) + 1) := by
    rw [List.mem_map]
    refine ⟨(x0 - 1).toNat, ?_, ?_⟩
    · rw [List.mem_range]
      omega
    · omega
  have hrange : ∀ x ∈ (List.range (cols - 2)).map (fun n : ℕ => (n : ℤ) + 1),
      1 ≤ x ∧ x ≤ (cols : ℤ) - 2 := by
    intro x hx
    rw [List.mem_map] at hx
    obtain ⟨n, hn, hnx⟩ := hx
    rw [List.mem_range] at hn
    omega
  have hinv0 : scanInv g cols rows (t, none) := by
    intro hcon
    simp at hcon
  have hinv := scanFold_inv g cols rows t _ (t, none) hrange hinv0
  have hsome := scanFold_activates g rows t _ (t, none) x0 hmem hx0p
  unfold findBestCol
  exact hinv hsome

/-- The exit-placement fold only writes Exit cells into the last row, at the
columns it records, and each recorded column sits above a Path cell of the
second-to-last row. -/
theorem exitsFold_facts (cols rows : ℕ) :
    ∀ (ps : List ℚ) (g0 : Grid) (acc0 : List ℤ),
      (∃ x0 : ℤ, 1 ≤ x0 ∧ x0 ≤ (cols : ℤ) - 2 ∧ g0 ((rows : ℤ) - 2) x0 = PATH) →
      ((∀ y x : ℤ, y ≠ (rows : ℤ) - 1 →
          (ps.foldl (exitStep cols rows) (g0, acc0)).1 y x = g0 y x) ∧
       (∀ c ∈ acc0, c ∈ (ps.foldl (exitStep cols rows) (g0, acc0)).2) ∧
       (∀ c ∈ (ps.foldl (exitStep cols rows) (g0, acc0)).2, c ∈ acc0 ∨
          ((ps.foldl (exitStep cols rows) (g0, acc0)).1 ((rows : ℤ) - 2) c = PATH ∧
           1 ≤ c ∧ c ≤ (cols : ℤ) - 2 ∧
           (ps.foldl (exitStep cols rows) (g0, acc0)).1 ((rows : ℤ) - 1) c = EXIT)) ∧
       (∀ y x : ℤ, (ps.foldl (exitStep cols rows) (g0, acc0)).1 y x = g0 y x ∨
          (y = (rows : ℤ) - 1 ∧ (ps.foldl (exitStep cols rows) (g0, acc0)).1 y x = EXIT ∧
           x ∈ (ps.foldl (exitStep cols rows) (g0, acc0)).2))) := by
  intro ps
  induction ps with
  | nil =>
    intro g0 acc0 _
    refine ⟨fun y x _ => rfl, fun c hc => hc, fun c hc => Or.inl hc, fun y x => Or.inl rfl⟩
  | cons p ps ih =>
    intro g0 acc0 hex
    obtain ⟨x0, hx0a, hx0b, hx0p⟩ := hex
    have hbest := findBestCol_path g0 cols rows ⌊p * (cols : ℚ)⌋ x0 hx0a hx0b hx0p
    set best := findBestCol g0 cols rows ⌊p * (cols : ℚ)⌋ with hbestdef
    have hstep : exitStep cols rows (g0, acc0) p =
        (setCell g0 ((rows : ℤ) - 1) best EXIT, acc0 ++ [best]) := rfl
    have hrowne : ((rows : ℤ) - 2) ≠ ((rows : ℤ) - 1) := by omega
    have hg1row : ∀ x : ℤ, setCell g0 ((rows : ℤ) - 1) best EXIT ((rows : ℤ) - 2) x =
        g0 ((rows : ℤ) - 2) x := by
      intro x
      exact setCell_other g0 _ _ EXIT _ x (fun hcon => hrowne hcon.1)
    have hex1 : ∃ x1 : ℤ, 1 ≤ x1 ∧ x1 ≤ (cols : ℤ) - 2 ∧
        setCell g0 ((rows : ℤ) - 1) best EXIT ((rows : ℤ) - 2) x1 = PATH := by
      refine ⟨x0, hx0a, hx0b, ?_⟩
      rw [hg1row]
      exact hx0p
    obtain ⟨I1, I2, I3, I4⟩ := ih (setCell g0 ((rows : ℤ) - 1) best EXIT) (acc0 ++ [best]) hex1
    have hfold : (p :: ps).foldl (exitStep cols rows) (g0, acc0) =
        ps.foldl (exitStep cols rows) (setCell g0 ((rows : ℤ) - 1) best EXIT, acc0 ++ [best]) := by
      rw [List.foldl_cons, hstep]
    rw [hfold]
    refine ⟨?_, ?_, ?_, ?_⟩
    · intro y x hy
      rw [I1 y x hy]
      exact setCell_other g0 _ _ EXIT y x (fun hcon => hy hcon.1)
    · intro c hc
      exact I2 c (by simp [hc])
    · intro c hc
      rcases I3 c hc with hacc | hprops
      · rcases List.mem_append.mp hacc with hc0 | hcb
        · exact Or.inl hc0
        · right
          have hcb2 : c = best := by simpa using hcb
          subst hcb2
          refine ⟨?_, hbest.2.1, hbest.2.2, ?_⟩
          · rw [I1 _ _ hrowne, hg1row]
            exact hbest.1
          · rcases I4 ((rows : ℤ) - 1) best with hA | hB
            · rw [hA]
              exact setCell_same g0 _ _ EXIT
            · exact hB.2.1
      · exact Or.inr hprops
    · intro y x
      rcases I4 y x with hA | hB
      · rw [hA]
        by_cases hyx : y = (rows : ℤ) - 1 ∧ x = best
        · right
          obtain ⟨h1, h2⟩ := hyx
          refine ⟨h1, ?_, ?_⟩
          · rw [h1, h2]
            exact setCell_same g0 _ _ EXIT
          · rw [h2]
            exact I2 best (by simp)
        · left
          exact setCell_other g0 _ _ EXIT y x hyx
      · exact Or.inr hB

/-- The gap-closing loop does nothing when every recorded column already has
a Path cell above its exit. -/
theorem fixFold_noop (rows : ℕ) :
    ∀ (cs : List ℤ) (g : Grid), (∀ c ∈ cs, g ((rows : ℤ) - 2) c ≠ WALL) →
      cs.foldl (fixStep rows) g = g := by
  intro cs
  induction cs with
  | nil =>
    intro g _
    rfl
  | cons c cs ih =>
    intro g hc
    have hstep : fixStep rows g c = g := by
      unfold fixStep
      rw [if_neg (hc c (by simp))]
    rw [List.foldl_cons, hstep]
    exact ih g (fun c2 hc2 => hc c2 (by simp [hc2]))

/-! ## C1: maze connectivity -/

/-- `colsOf` always yields an odd count of at least 11. -/
theorem colsOf_facts (level : ℕ) : colsOf level % 2 = 1 ∧ 11 ≤ colsOf level := by
  unfold colsOf
  simp only []
  split <;> omega

/-- `rowsOf` always yields an odd count of at least 13. -/
theorem rowsOf_facts (level : ℕ) : rowsOf level % 2 = 1 ∧ 13 ≤ rowsOf level := by
  unfold rowsOf
  simp only []
  split <;> omega

/-- Componentwise introduction for `inB`. -/
theorem inB_mk {cols rows : ℕ} {a b : ℤ} (h1 : 0 ≤ a) (h2 : a < (cols : ℤ))
    (h3 : 0 ≤ b) (h4 : b < (rows : ℤ)) : inB cols rows (a, b) :=
  ⟨h1, h2, h3, h4⟩

/-- Strict interiority implies in-bounds. -/
theorem interior_inB {cols rows : ℕ} {p : ℤ × ℤ} (h : interior cols rows p.1 p.2) :
    inB cols rows p := by
  unfold interior at h
  unfold inB
  omega

/-- A vertical neighbour pair is adjacent. -/
theorem adj_vert (a b c : ℤ) (h : c = b + 1) : adjacent (a, b) (a, c) :=
  Or.inl ⟨rfl, Or.inr h⟩

/-- A horizontal neighbour pair is adjacent. -/
theorem adj_horiz (a b c : ℤ) (h : c = a + 1) : adjacent (a, b) (c, b) :=
  Or.inr ⟨rfl, Or.inr h⟩

/-- One flood step is symmetric. -/
theorem floodStep_symm {g : Grid} {cols rows : ℕ} {p q : ℤ × ℤ}
    (h : floodStep g cols rows p q) : floodStep g cols rows q p :=
  ⟨h.2.1, h.1, h.2.2.2.1, h.2.2.1, adjacent_symm h.2.2.2.2⟩

/-- Flood reachability is symmetric. -/
theorem floodReach_symm {g : Grid} {cols rows : ℕ} {p q : ℤ × ℤ}
    (h : FloodReach g cols rows p q) : FloodReach g cols rows q p :=
  Relation.ReflTransGen.symmetric (fun _ _ hs => floodStep_symm hs) h

/-- The source of a Path-walk with Path target is itself a Path cell. -/
theorem reachP_src_path {g : Grid} {p q : ℤ × ℤ} (h : ReachP g p q)
    (hq : g q.2 q.1 = PATH) : g p.2 p.1 = PATH := by
  rcases Relation.ReflTransGen.cases_head h with heq | ⟨c, hstep, _⟩
  · rw [heq]
    exact hq
  · exact hstep.2

/-- A Path-walk in the carved grid lifts to a flood walk in any grid that
keeps every Path cell Path. -/
theorem reachP_flood {g G : Grid} {cols rows : ℕ}
    (hIP : ∀ a b : ℤ, g b a = PATH → interior cols rows a b)
    (hF3 : ∀ a b : ℤ, g b a = PATH → G b a = PATH) :
    ∀ p q : ℤ × ℤ, ReachP g p q → g q.2 q.1 = PATH → FloodReach G cols rows p q := by
  intro p q h
  induction h using Relation.ReflTransGen.head_induction_on with
  | refl =>
    intro _
    exact Relation.ReflTransGen.refl
  | head hstep htail ih =>
    intro hq
    obtain ⟨hadj, hpa⟩ := hstep
    have hcp := reachP_src_path htail hq
    exact Relation.ReflTransGen.head
      ⟨interior_inB (hIP _ _ hpa), interior_inB (hIP _ _ hcp), Or.inl (hF3 _ _ hpa),
       Or.inl (hF3 _ _ hcp), hadj⟩ (ih hq)

/-- Entry and exit placement on a carved grid that satisfies the
`generateMaze` invariants produces a grid whose every Exit cell is
flood-reachable from the entry cell. -/
theorem createEntryAndExits_connected (cols rows : ℕ) (hoc : cols % 2 = 1)
    (hor : rows % 2 = 1) (h5c : 5 ≤ cols) (h5r : 5 ≤ rows) (g2 : Grid)
    (hBW : BW g2) (hIP : ∀ a b : ℤ, g2 b a = PATH → interior cols rows a b)
    (hstart : g2 1 ((startCol cols : ℕ) : ℤ) = PATH)
    (hodd : ∀ a b : ℤ, a % 2 = 1 → b % 2 = 1 → interior cols rows a b → g2 b a = PATH)
    (hconn : ∀ a b : ℤ, g2 b a = PATH → ReachP g2 (a, b) (((startCol cols : ℕ) : ℤ), 1)) :
    ∀ x y : ℤ, (createEntryAndExits g2 cols rows).1 y x = EXIT →
      FloodReach (createEntryAndExits g2 cols rows).1 cols rows (entryCell cols) (x, y) := by
  set cX : ℤ := ((cols / 2 : ℕ) : ℤ) with hcX
  set gB : Grid := setCell g2 0 cX ENTRY with hgB
  set gC : Grid := setCell gB 1 cX PATH with hgC
  have hex : ∃ x0 : ℤ, 1 ≤ x0 ∧ x0 ≤ (cols : ℤ) - 2 ∧ gC ((rows : ℤ) - 2) x0 = PATH := by
    refine ⟨1, le_refl 1, by omega, ?_⟩
    rw [hgC, setCell_other gB 1 cX PATH ((rows : ℤ) - 2) 1 (by intro hcon; omega),
        hgB, setCell_other g2 0 cX ENTRY ((rows : ℤ) - 2) 1 (by intro hcon; omega)]
    exact hodd 1 ((rows : ℤ) - 2) (by decide) (by omega) (by unfold interior; omega)
  obtain ⟨I1, I2, I3, I4⟩ := exitsFold_facts cols rows exitPositions gC [] hex
  set pr : Grid × List ℤ := exitPositions.foldl (exitStep cols rows) (gC, []) with hpr
  have hnoW : ∀ c ∈ pr.2, pr.1 ((rows : ℤ) - 2) c ≠ WALL := by
    intro c hc
    rcases I3 c hc with habs | hprops
    · exact absurd habs (List.not_mem_nil c)
    · rw [hprops.1]
      decide
  have hfst : (createEntryAndExits g2 cols rows).1 = pr.1 := by
    show (pr.2.foldl (fixStep rows) pr.1, pr.2).1 = pr.1
    exact fixFold_noop rows pr.2 pr.1 hnoW
  have hgC_notE : ∀ b a : ℤ, gC b a ≠ EXIT := by
    intro b a
    by_cases h1 : b = 1 ∧ a = cX
    · rw [hgC, h1.1, h1.2, setCell_same gB 1 cX PATH]
      decide
    · rw [hgC, setCell_other gB 1 cX PATH b a h1]
      by_cases h0 : b = 0 ∧ a = cX
      · rw [hgB, h0.1, h0.2, setCell_same g2 0 cX ENTRY]
        decide
      · rw [hgB, setCell_other g2 0 cX ENTRY b a h0]
        rcases hBW b a with hW | hP
        · rw [hW]
          decide
        · rw [hP]
          decide
  have hpers : ∀ a b : ℤ, g2 b a = PATH → pr.1 b a = PATH := by
    intro a b hp
    have hi := hIP a b hp
    have hbne : b ≠ (rows : ℤ) - 1 := by
      unfold interior at hi
      omega
    rw [I1 b a hbne]
    by_cases h1 : b = 1 ∧ a = cX
    · rw [hgC, h1.1, h1.2]
      exact setCell_same gB 1 cX PATH
    · rw [hgC, setCell_other gB 1 cX PATH b a h1, hgB,
          setCell_other g2 0 cX ENTRY b a (by intro h0; unfold interior at hi; omega)]
      exact hp
  have hEntry : pr.1 0 cX = ENTRY := by
    rw [I1 0 cX (by omega), hgC,
        setCell_other gB 1 cX PATH 0 cX (by intro h0; exact absurd h0.1 (by decide)), hgB]
    exact setCell_same g2 0 cX ENTRY
  have hC1 : pr.1 1 cX = PATH := by
    rw [I1 1 cX (by omega), hgC]
    exact setCell_same gB 1 cX PATH
  have hsf := startCol_facts cols hoc h5c
  set sX : ℤ := ((startCol cols : ℕ) : ℤ) with hsX
  have hsrel : (sX = cX ∨ sX = cX + 1) ∧ 0 < sX ∧ sX < (cols : ℤ) - 1 := by
    rw [hsX, hcX]
    unfold startCol
    split <;> omega
  obtain ⟨hsor, hs0, hs1⟩ := hsrel
  have hcXb : 0 ≤ cX ∧ cX < (cols : ℤ) := by
    rw [hcX]
    omega
  have hS : pr.1 1 sX = PATH := hpers sX 1 hstart
  have hstep1 : floodStep pr.1 cols rows (cX, 0) (cX, 1) :=
    ⟨inB_mk hcXb.1 hcXb.2 (le_refl 0) (by omega),
     inB_mk hcXb.1 hcXb.2 (by omega) (by omega),
     Or.inr (Or.inl hEntry), Or.inl hC1, adj_vert cX 0 1 rfl⟩
  have hreach2 : FloodReach pr.1 cols rows (cX, 1) (sX, 1) := by
    rcases hsor with heq | hsucc
    · rw [heq]
      exact Relation.ReflTransGen.refl
    · exact Relation.ReflTransGen.single
        ⟨inB_mk hcXb.1 hcXb.2 (by omega) (by omega),
         inB_mk (by omega) (by omega) (by omega) (by omega),
         Or.inl hC1, Or.inl hS, adj_horiz cX 1 sX hsucc⟩
  have hflood := reachP_flood hIP hpers
  intro x y hexit
  rw [hfst] at hexit ⊢
  rcases I4 y x with hA | hB
  · exact absurd (hA.symm.trans hexit) (hgC_notE y x)
  · obtain ⟨hy, _, hxmem⟩ := hB
    rcases I3 x hxmem with habs | ⟨hup, hx1, hx2, hxE⟩
    · exact absurd habs (List.not_mem_nil x)
    · have hg2up : g2 ((rows : ℤ) - 2) x = PATH := by
        have hup2 := hup
        rw [I1 ((rows : ℤ) - 2) x (by omega), hgC,
            setCell_other gB 1 cX PATH ((rows : ℤ) - 2) x (by intro hcon; omega), hgB,
            setCell_other g2 0 cX ENTRY ((rows : ℤ) - 2) x (by intro hcon; omega)] at hup2
        exact hup2
      have hr3 := hflood (x, (rows : ℤ) - 2) (sX, 1) (hconn x ((rows : ℤ) - 2) hg2up) hstart
      have hr3s := floodReach_symm hr3
      have hstep4 : floodStep pr.1 cols rows (x, (rows : ℤ) - 2) (x, (rows : ℤ) - 1) :=
        ⟨inB_mk (by omega) (by omega) (by omega) (by omega),
         inB_mk (by omega) (by omega) (by omega) (by omega),
         Or.inl hup, Or.inr (Or.inr hxE),
         adj_vert x ((rows : ℤ) - 2) ((rows : ℤ) - 1) (by omega)⟩
      show FloodReach pr.1 cols rows (cX, 0) (x, y)
      rw [hy]
      exact Relation.ReflTransGen.head hstep1
        (Relation.ReflTransGen.trans hreach2
          (Relation.ReflTransGen.trans hr3s (Relation.ReflTransGen.single hstep4)))

set_option maxHeartbeats 2000000 in
/-- C1: for every maze produced by `MazeGenerator.init` at levels 1..10 and
any canvas dimensions, every Exit cell of the finished grid is reachable
from the entry cell by a flood fill over Path/Entry/Exit cells: no exit is
isolated from the carved network. -/
theorem c1_maze_connectivity (level : ℕ) (cw ch zh : ℚ) (seed : ℕ) (m : MazeState)
    (_hlv1 : 1 ≤ level) (_hlv2 : level ≤ 10)
    (hinit : MazeGenerator.init level cw ch zh seed = .ok m) :
    ∀ x y : ℤ, m.grid y x = EXIT →
      FloodReach m.grid m.cols m.rows (entryCell m.cols) (x, y) := by
  obtain ⟨g, r2, hgen, hm⟩ := init_ok_elim hinit
  have hoc := (colsOf_facts level).1
  have h11 := (colsOf_facts level).2
  have hor := (rowsOf_facts level).1
  have h13 := (rowsOf_facts level).2
  obtain ⟨hBW, hIP, hstart, hodd, hconn⟩ :=
    generateMaze_facts (colsOf level) (rowsOf level) hoc hor (by omega) (by omega)
      ⟨seed⟩ g r2 hgen
  have hmain := createEntryAndExits_connected (colsOf level) (rowsOf level) hoc hor
    (by omega) (by omega) g hBW hIP hstart hodd hconn
  subst hm
  intro x y hexit
  exact hmain x y hexit

set_option maxRecDepth 1000000 in
/-- C1, witness: in the concrete level-1 maze seeded with 1, the exit cell
in column 1 of the last row is flood-reachable from the entry cell. -/
theorem c1_witness : ∃ m, MazeGenerator.init 1 500 500 60 1 = .ok m ∧
    FloodReach m.grid m.cols m.rows (entryCell m.cols) (1, 12) := by
  have hok := initExample_isOk
  cases hm : MazeGenerator.init 1 500 500 60 1 with
  | error e =>
    rw [hm] at hok
    simp [Except.isOk, Except.toBool] at hok
  | ok m =>
    have hgrid : m.grid 12 1 = EXIT := by
      have h3 : (match MazeGenerator.init 1 500 500 60 1 with
                 | .ok mm => mm.grid 12 1
                 | .error _ => 0) = EXIT := by with_unfolding_all decide
      rw [hm] at h3
      exact h3
    exact ⟨m, rfl, c1_maze_connectivity 1 500 500 60 1 m (by decide) (by decide) hm 1 12 hgrid⟩

end ExitVector
